import Mathlib

/-!
Verification development for the LyX Hotkey Plugin core
(`src/parser.js` — class `LyXParser`, and `src/hotkeyManager.js` — class
`HotkeyManager`).  The JavaScript code is shallowly embedded: strings are
Lean `String` (a structure over `List Char`), JS `Map` objects are
association lists with insertion-order `set` semantics, the logger
collaborator is an accumulated list of typed log entries, and the
key-sequence engine is a pure state-transition function that additionally
reports the externally observable sink invocations (with the engine state
at the moment of the call) as a list of events.
-/

namespace LyxPlugin

/-! ## JavaScript string primitives (on `List Char`)

Each primitive mirrors the behaviour of the corresponding JS string method
as used by the repository: `split(sep)` for a one-character separator,
`join(sep)`, `trim()`, `includes(sub)`, `replace(lit, rep)` on a string
pattern (first occurrence only) and `replace(/lit/g, rep)` (all
occurrences, scanning left to right without rescanning replacements). -/

/-- ASCII whitespace recognized by `String.prototype.trim` (the repository
only ever trims ASCII text). -/
def isWsp (c : Char) : Bool :=
  c = ' ' || c = '\t' || c = '\n' || c = '\r' || c = Char.ofNat 11 || c = Char.ofNat 12

/-- JS `s.trim()`. -/
def trimL (s : List Char) : List Char :=
  ((s.dropWhile isWsp).reverse.dropWhile isWsp).reverse

/-- JS `s.trim()` on `String`. -/
def jsTrim (s : String) : String :=
  String.mk (trimL s.data)

/-- JS `s.split(sep)` for a single-character separator: `"" ↦ [""]`,
adjacent separators produce empty fields. -/
def splitCh (sep : Char) : List Char → List (List Char)
  | [] => [[]]
  | c :: cs =>
    if c = sep then [] :: splitCh sep cs
    else
      match splitCh sep cs with
      | [] => [[c]]
      | h :: t => (c :: h) :: t

/-- JS `parts.join(sep)` for a single-character separator. -/
def joinCh (sep : Char) : List (List Char) → List Char
  | [] => []
  | [t] => t
  | t :: ts => t ++ sep :: joinCh sep ts

/-- JS `s.split(sep)` at the `String` level. -/
def jsSplit (sep : Char) (s : String) : List String :=
  (splitCh sep s.data).map (fun l => String.mk l)

/-- JS `parts.join(sep)` for a list of strings. -/
def joinStr (sep : String) : List String → String
  | [] => ""
  | [x] => x
  | x :: xs => x ++ sep ++ joinStr sep xs

/-- JS `s.includes(sub)`. -/
def containsL (sub : List Char) : List Char → Bool
  | [] => sub.isEmpty
  | c :: cs => sub.isPrefixOf (c :: cs) || containsL sub cs

/-- JS `s.includes(sub)` at the `String` level. -/
def jsIncludes (s sub : String) : Bool :=
  containsL sub.data s.data

/-- JS `s.replace(pat, rep)` with a *string* pattern: replaces the first
occurrence only (the tail after the match is not rescanned). -/
def replaceFirstL (pat rep : List Char) : List Char → List Char
  | [] => []
  | c :: cs =>
    if pat.isPrefixOf (c :: cs) then rep ++ (c :: cs).drop pat.length
    else c :: replaceFirstL pat rep cs

/-- JS `s.replace(pat, rep)` with a string pattern, on `String`. -/
def jsReplaceFirst (s pat rep : String) : String :=
  String.mk (replaceFirstL pat.data rep.data s.data)

/-- Fuel-indexed worker for global replacement; with fuel at least the
length of the input it performs JS `s.replace(/pat/g, rep)`: scan left to
right, replace each non-overlapping occurrence, never rescan a
replacement. -/
def replaceFuel (pat rep : List Char) : Nat → List Char → List Char
  | 0, s => s
  | _ + 1, [] => []
  | fuel + 1, c :: cs =>
    if pat.isPrefixOf (c :: cs) then
      rep ++ replaceFuel pat rep fuel (cs.drop (pat.length - 1))
    else
      c :: replaceFuel pat rep fuel cs

/-- JS `s.replace(/pat/g, rep)` for a literal (regex-metacharacter-free)
pattern, as used throughout `normalizeKeySequence`. -/
def replaceAllL (pat rep : List Char) (s : List Char) : List Char :=
  replaceFuel pat rep s.length s


/-! ## `LyXParser` data model (src/parser.js) -/

/-- The action object produced by `LyXParser.parseCommand`
(src/parser.js:117-165): either `{type:'insert', text}` or
`{type:'command', command}`. -/
inductive Action where
  | insert (text : String)
  | command (command : String)
deriving DecidableEq

/-- The binding object produced by `LyXParser.parseBindLine`
(src/parser.js:65-70). -/
structure Binding where
  keySequence : String
  originalKeySequence : String
  command : String
  action : Action
deriving DecidableEq

/-- The `symbolMap` object literal of `LyXParser.convertLaTeXSymbol`
(src/parser.js:184-215). -/
def symbolMap : List (String × String) :=
  [("\\alpha", "α"), ("\\beta", "β"), ("\\gamma", "γ"), ("\\delta", "δ"),
   ("\\epsilon", "ε"), ("\\zeta", "ζ"), ("\\eta", "η"), ("\\theta", "θ"),
   ("\\iota", "ι"), ("\\kappa", "κ"), ("\\lambda", "λ"), ("\\mu", "μ"),
   ("\\nu", "ν"), ("\\xi", "ξ"), ("\\pi", "π"), ("\\rho", "ρ"),
   ("\\sigma", "σ"), ("\\tau", "τ"), ("\\upsilon", "υ"), ("\\phi", "φ"),
   ("\\chi", "χ"), ("\\psi", "ψ"), ("\\omega", "ω"), ("\\sum", "∑"),
   ("\\int", "∫"), ("\\infty", "∞"), ("\\pm", "±"), ("\\neq", "≠"),
   ("\\leq", "≤"), ("\\geq", "≥")]

/-- `LyXParser.convertLaTeXSymbol` (src/parser.js:172-219).  The JS lookup
`symbolMap[symbol] || symbol` falls back to `symbol` when the key is
absent (no mapped value is falsy, so `Option.getD` is exact). -/
def convertLaTeXSymbol (symbol : String) : String :=
  if symbol = "\\frac" then "\\frac\x7b\x7d\x7b\x7d"
  else if symbol = "\\sqrt" then "\\sqrt\x7b\x7d"
  else ((symbolMap.find? (fun p => p.1 == symbol)).map (fun p => p.2)).getD symbol

/-- `LyXParser.extractInsertText` (src/parser.js:226-230):
`command.split(' ').slice(1).join(' ')`. -/
def extractInsertText (command : String) : String :=
  joinStr " " ((jsSplit ' ' command).drop 1)

/-- `LyXParser.handleQuoteInsert` (src/parser.js:237-245): every branch
returns a plain double quote. -/
def handleQuoteInsert (command : String) : String :=
  if jsIncludes command "inner" then "\""
  else if jsIncludes command "outer" then "\""
  else "\""

/-- `LyXParser.handleSpecialChar` (src/parser.js:252-269): soft hyphen,
non-breaking hyphen, zero-width non-joiner, period, ellipsis, else "". -/
def handleSpecialChar (command : String) : String :=
  if jsIncludes command "hyphenation" then "\u00AD"
  else if jsIncludes command "nobreakdash" then "\u2011"
  else if jsIncludes command "ligature-break" then "\u200C"
  else if jsIncludes command "end-of-sentence" then "."
  else if jsIncludes command "dots" then "\u2026"
  else ""

/-- `LyXParser.parseCommand` (src/parser.js:117-165), with the branches in
the exact source order: `startsWith('math-insert')`, then
`includes('insert')`, then `startsWith('self-insert')`, then
`startsWith('quote-insert')`, then `startsWith('specialchar-insert')`,
else a custom command. -/
def parseCommand (command : String) : Action :=
  if List.isPrefixOf "math-insert".data command.data then
    Action.insert (convertLaTeXSymbol (jsTrim (jsReplaceFirst command "math-insert " "")))
  else if jsIncludes command "insert" then
    Action.insert (extractInsertText command)
  else if List.isPrefixOf "self-insert".data command.data then
    Action.insert (jsTrim (jsReplaceFirst command "self-insert " ""))
  else if List.isPrefixOf "quote-insert".data command.data then
    Action.insert (handleQuoteInsert command)
  else if List.isPrefixOf "specialchar-insert".data command.data then
    Action.insert (handleSpecialChar command)
  else
    Action.command command

/-- The chain of global text substitutions performed by
`LyXParser.normalizeKeySequence` (src/parser.js:78-110), as
(pattern, replacement) pairs in the exact source order: modifier
conversion first (lines 81-84), then named-key aliases (lines 88-101),
then the negated-modifier strips (lines 105-107). -/
def normalizePassList : List (String × String) :=
  [("M-", "Alt+"), ("C-", "Ctrl+"), ("S-", "Shift+"), ("A-", "Alt+"),
   ("space", "Space"), ("Return", "Enter"), ("BackSpace", "Backspace"),
   ("Delete", "Delete"), ("Tab", "Tab"), ("Escape", "Escape"),
   ("Up", "ArrowUp"), ("Down", "ArrowDown"), ("Left", "ArrowLeft"),
   ("Right", "ArrowRight"), ("Prior", "PageUp"), ("Next", "PageDown"),
   ("Home", "Home"), ("End", "End"),
   ("~S-", ""), ("~C-", ""), ("~M-", "")]

/-- `LyXParser.normalizeKeySequence` (src/parser.js:78-110): the chained
`.replace(/pat/g, rep)` calls applied left to right. -/
def normalizeKeySequence (keySequence : String) : String :=
  String.mk (normalizePassList.foldl
    (fun s pr => replaceAllL pr.1.data pr.2.data s) keySequence.data)

/-! ## `LyXParser.parseBindLine` and the bind-line regex

`parseBindLine` (src/parser.js:53-71) matches the unanchored regex
`\\bind\s+"([^"]+)"\s+"([^"]+)"` against the line.  The regex is
deterministic (each quantified class is bounded by the following literal),
so the JS leftmost-match search is embedded directly: `matchBindAt` tries
the pattern at the head of the list and `matchBindLine` scans for the
leftmost position at which it succeeds, returning the two capture
groups. -/

/-- Match `\\bind\s+"([^"]+)"\s+"([^"]+)"` at the start of the list,
returning the two captures. -/
def matchBindAt (l : List Char) : Option (List Char × List Char) :=
  if List.isPrefixOf "\\bind".data l then
    match l.drop 5 with
    | c :: _ =>
      if isWsp c then
        match (l.drop 5).dropWhile isWsp with
        | '"' :: r3 =>
          let ks := r3.takeWhile (fun c => c ≠ '"')
          if ks.isEmpty then none
          else
            match r3.drop ks.length with
            | '"' :: r4 =>
              match r4 with
              | d :: _ =>
                if isWsp d then
                  match r4.dropWhile isWsp with
                  | '"' :: r5 =>
                    let cmd := r5.takeWhile (fun c => c ≠ '"')
                    if cmd.isEmpty then none
                    else
                      match r5.drop cmd.length with
                      | '"' :: _ => some (ks, cmd)
                      | _ => none
                  | _ => none
                else none
              | [] => none
            | _ => none
        | _ => none
      else none
    | [] => none
  else none

/-- Leftmost match of the bind-line regex anywhere in the line
(JS `line.match(bindRegex)`). -/
def matchBindLine : List Char → Option (List Char × List Char)
  | [] => none
  | c :: cs =>
    match matchBindAt (c :: cs) with
    | some r => some r
    | none => matchBindLine cs

/-- One entry handed to the log collaborator.  The four shapes are exactly
the log calls reachable from `LyXParser.parse`:
`debug` on a parsed binding (src/parser.js:36), `warn` on a line that does
not match the bind regex (src/parser.js:59, note: no line number), `warn`
with the 1-based line number from the `catch` block (src/parser.js:39),
and the final `info` with the binding count (src/parser.js:44).  The
`catch` entry is never produced: every operation `parseBindLine` performs
is a total JS string operation, so it cannot throw. -/
inductive LogEntry where
  | debugParsed (keySequence command : String)
  | warnInvalidFormat (line : String)
  | warnFailedParse (lineNumber : Nat) (line : String)
  | infoParsedCount (n : Nat)
deriving DecidableEq

/-- `LyXParser.parseBindLine` (src/parser.js:53-71): on a regex match
build the binding object; otherwise warn (without a line number) and
return null. -/
def parseBindLine (line : String) : Option Binding × List LogEntry :=
  match matchBindLine line.data with
  | none => (none, [LogEntry.warnInvalidFormat line])
  | some (keySequence, command) =>
    (some
      { keySequence := normalizeKeySequence (String.mk keySequence)
        originalKeySequence := String.mk keySequence
        command := String.mk command
        action := parseCommand (String.mk command) },
     [])

/-! ## The binding table (a JS `Map` as an insertion-ordered association list) -/

/-- JS `Map.prototype.set`: overwrite in place if the key is present,
otherwise append. -/
def mapSet (m : List (String × Binding)) (k : String) (v : Binding) :
    List (String × Binding) :=
  if m.any (fun p => p.1 == k) then
    m.map (fun p => if p.1 == k then (k, v) else p)
  else
    m ++ [(k, v)]

/-- JS `Map.prototype.get` (keys are unique, so the first hit is the
entry). -/
def mapGet (m : List (String × Binding)) (k : String) : Option Binding :=
  (m.find? (fun p => p.1 == k)).map (fun p => p.2)

/-- Result of `LyXParser.parse`: the binding table plus everything sent to
the log collaborator, in order. -/
structure ParseResult where
  bindings : List (String × Binding)
  logs : List LogEntry
deriving DecidableEq

/-- The body of the per-line loop of `LyXParser.parse`
(src/parser.js:21-42): skip blank lines and `#` comments, process lines
whose trimmed form starts with `\bind`, silently ignore every other
line. -/
def parseLine (acc : ParseResult) (line : String) : ParseResult :=
  let trimmed := jsTrim line
  if trimmed = "" then acc
  else if List.isPrefixOf "#".data trimmed.data then acc
  else if List.isPrefixOf "\\bind".data trimmed.data then
    match parseBindLine trimmed with
    | (some b, logs1) =>
      { bindings := mapSet acc.bindings b.keySequence b
        logs := acc.logs ++ logs1 ++ [LogEntry.debugParsed b.keySequence b.command] }
    | (none, logs1) => { acc with logs := acc.logs ++ logs1 }
  else acc

/-- The lines of the configuration text: JS `content.split('\n')`. -/
def linesOf (content : String) : List String :=
  (splitCh '\n' content.data).map (fun l => String.mk l)

/-- `LyXParser.parse` (src/parser.js:16-46). -/
def parse (content : String) : ParseResult :=
  let r := (linesOf content).foldl parseLine { bindings := [], logs := [] }
  { r with logs := r.logs ++ [LogEntry.infoParsedCount r.bindings.length] }

/-- JS property assignment `obj[k] = v` on a plain object literal,
modelled on the object's own enumerable properties.  The key
`"__proto__"` hits the inherited `Object.prototype.__proto__` setter: the
object's prototype is replaced and *no own property is created*, so the
entry is invisible to `Object.entries`.  Every other key is an ordinary
own-property write (overwrite in place, or append). -/
def jsObjectSet (own : List (String × Binding)) (k : String) (v : Binding) :
    List (String × Binding) :=
  if k = "__proto__" then own else mapSet own k v

/-- The numeric value of a digit string (used for the array-index key
order of plain objects). -/
def digitsToNat (k : List Char) : Nat :=
  k.foldl (fun n c => n * 10 + (c.toNat - 48)) 0

/-- Whether a key is a canonical array index in the JS sense: `"0"`, or a
digit string with no leading zero whose value is at most `2^32 - 2`.
Plain objects enumerate such keys first, in ascending numeric order. -/
def isCanonicalIndex (k : List Char) : Bool :=
  match k with
  | [] => false
  | ['0'] => true
  | c :: _ => (c ≠ '0') && k.all (fun d => d.isDigit) && (digitsToNat k ≤ 4294967294)

/-- JS `Object.entries` on a plain object with the given own properties
(in assignment order): canonical array-index keys first in ascending
numeric order, then the remaining string keys in insertion order. -/
def jsObjectEntries (own : List (String × Binding)) : List (String × Binding) :=
  List.insertionSort (fun p q => digitsToNat p.1.data ≤ digitsToNat q.1.data)
      (own.filter (fun p => isCanonicalIndex p.1.data))
    ++ own.filter (fun p => !isCanonicalIndex p.1.data)

/-- `LyXParser.exportBindings` (src/parser.js:292-298): assign each `Map`
entry, in insertion order, onto a fresh plain object (`exported[key] =
value`); the result is the object's own-property list. -/
def exportBindings (m : List (String × Binding)) : List (String × Binding) :=
  m.foldl (fun acc kv => jsObjectSet acc kv.1 kv.2) []

/-- `LyXParser.importBindings` (src/parser.js:304-310): clear the table,
then `Map.set` every pair produced by `Object.entries(exported)` in
enumeration order. -/
def importBindings (l : List (String × Binding)) : List (String × Binding) :=
  (jsObjectEntries l).foldl (fun acc kv => mapSet acc kv.1 kv.2) []

/-- Whether some log entry carries a line number (only the unreachable
`catch`-block entry does). -/
def hasLineNumberEntry (logs : List LogEntry) : Bool :=
  logs.any fun e =>
    match e with
    | LogEntry.warnFailedParse _ _ => true
    | _ => false

/-- The binding table's keys are pairwise distinct (the `Map` invariant). -/
def nodupKeys (m : List (String × Binding)) : Prop :=
  (m.map (fun p => p.1)).Nodup

/-! ## `HotkeyManager` (src/hotkeyManager.js)

The engine state keeps the fields that the claims are about; the armed
timer is a boolean (`timeoutId !== null`).  `handleKeyDown` returns the
successor state together with the list of sink invocations it performed;
each recorded invocation carries the value of `this.currentSequence` at
the moment `executeAction` runs and whether the external sink threw.
`executeAction` (src/hotkeyManager.js:319-340) wraps the sink call in
`try/catch`, so the state transition never depends on the sink's
outcome. -/

/-- The engine state of `HotkeyManager` (src/hotkeyManager.js:6-13). -/
structure MgrState where
  bindings : List (String × Binding)
  currentSequence : List String
  timeoutArmed : Bool
  enabled : Bool
  conflicts : List String
  sequenceTimeout : Int
deriving DecidableEq

/-- The state right after construction (src/hotkeyManager.js:6-13). -/
def initialMgr : MgrState :=
  { bindings := []
    currentSequence := []
    timeoutArmed := false
    enabled := true
    conflicts := []
    sequenceTimeout := 1500 }

/-- One externally observable sink invocation performed by
`executeAction`: the value of `currentSequence` at the moment of the call,
the action handed to the sink, and whether the sink threw (the `catch`
only logs, so the flag never influences the state). -/
inductive EngineEvent where
  | actionExecuted (pendingAtCall : List String) (action : Action) (sinkThrew : Bool)
deriving DecidableEq

/-- `HotkeyManager.hasConflict` (src/hotkeyManager.js:109-122), the
position-by-position comparison loop: `true` while every shared position
agrees (early `false` on the first mismatch). -/
def sharedEq : List String → List String → Bool
  | a :: as, b :: bs => (a == b) && sharedEq as bs
  | _, _ => true

/-- `HotkeyManager.hasConflict` (src/hotkeyManager.js:109-122): split both
sequences on spaces, compare the shared positions, conflict iff they all
agree and the lengths differ. -/
def hasConflict (seq1 seq2 : String) : Bool :=
  sharedEq (jsSplit ' ' seq1) (jsSplit ' ' seq2)
    && !((jsSplit ' ' seq1).length == (jsSplit ' ' seq2).length)

/-- The double loop of `HotkeyManager.detectConflicts`
(src/hotkeyManager.js:86-96): for every i < j in registration order, flag
the pair when `hasConflict` holds. -/
def conflictPairs : List String → List (String × String)
  | [] => []
  | s :: rest =>
    (rest.filter (fun s2 => hasConflict s s2)).map (fun s2 => (s, s2))
      ++ conflictPairs rest

/-- `HotkeyManager.detectConflicts` (src/hotkeyManager.js:82-101): the
conflict set as the `"seq1 <-> seq2"` strings added in loop order. -/
def detectConflicts (sequences : List String) : List String :=
  (conflictPairs sequences).map (fun p => p.1 ++ " <-> " ++ p.2)

/-- `HotkeyManager.hasMatchingPrefix` (src/hotkeyManager.js:235-242):
some table key starts with `sequence + " "`. -/
def hasMatchingPrefixOf (m : List (String × Binding)) (sequence : String) : Bool :=
  m.any (fun p => List.isPrefixOf (sequence ++ " ").data p.1.data)

/-- `HotkeyManager.resetSequence` (src/hotkeyManager.js:268-272): clear
`currentSequence` and cancel the timer. -/
def resetSequence (st : MgrState) : MgrState :=
  { st with currentSequence := [], timeoutArmed := false }

/-- `HotkeyManager.handleKeyDown` (src/hotkeyManager.js:145-188) at the
key-token level.  `keyString` is the token `eventToKeyString` produced,
`editableContext` is `isEditableContext(event.target)`, `specialKey` is
`isSpecialKey(event)` (Alt or Ctrl held), and `sinkThrows` is whether the
external sink would throw.  On an exact match the source calls
`executeAction` (line 169) *before* `resetSequence` (line 170), so the
recorded invocation sees the full pushed sequence; the `try/catch` inside
`executeAction` makes the resulting state independent of `sinkThrows`. -/
def handleKeyDown (st : MgrState) (keyString : String)
    (editableContext specialKey sinkThrows : Bool) : MgrState × List EngineEvent :=
  if st.enabled = false then (st, [])
  else if editableContext = false && specialKey = false then (st, [])
  else if keyString = "" then (st, [])
  else
    let seq := st.currentSequence ++ [keyString]
    let candidate := joinStr " " seq
    match mapGet st.bindings candidate with
    | some binding =>
      let pushed : MgrState := { st with currentSequence := seq }
      let ev := EngineEvent.actionExecuted pushed.currentSequence binding.action sinkThrows
      (resetSequence pushed, [ev])
    | none =>
      if hasMatchingPrefixOf st.bindings candidate then
        ({ st with currentSequence := seq, timeoutArmed := true }, [])
      else
        (resetSequence { st with currentSequence := seq }, [])

/-- The timeout callback armed by `startSequenceTimeout`
(src/hotkeyManager.js:247-253): when it fires it resets the sequence; it
can only fire while armed. -/
def sequenceTimeoutFire (st : MgrState) : MgrState :=
  if st.timeoutArmed then resetSequence st else st

/-- `HotkeyManager.setEnabled` (src/hotkeyManager.js:58-67). -/
def setEnabled (st : MgrState) (enabled : Bool) : MgrState :=
  let st1 := { st with enabled := enabled }
  if enabled = false then resetSequence st1 else st1

/-- `HotkeyManager.loadBindings` (src/hotkeyManager.js:73-77): replace the
table wholesale and recompute conflicts; `currentSequence` and the timer
are untouched. -/
def loadBindings (st : MgrState) (bindings : List (String × Binding)) : MgrState :=
  { st with bindings := bindings
            conflicts := detectConflicts (bindings.map (fun p => p.1)) }

/-- `HotkeyManager.setSequenceTimeout` (src/hotkeyManager.js:48-52):
clamp to [500, 5000]. -/
def setSequenceTimeout (st : MgrState) (timeout : Int) : MgrState :=
  { st with sequenceTimeout := max 500 (min 5000 timeout) }

/-- The Idle/Pending correspondence of the spec's state machine:
pendingTokens is empty exactly when no timeout is armed. -/
def MgrInv (st : MgrState) : Prop :=
  st.currentSequence = [] ↔ st.timeoutArmed = false

/-! ## Observer copies (src/hotkeyManager.js:346-356)

`getCurrentSequence` returns `[...this.currentSequence]` and
`getConflicts` returns `new Set(this.conflicts)`: both allocate a fresh
container and copy the contents.  To make the aliasing question
expressible, the two containers live in a small heap of addressed cells;
the engine fields are addresses, the observers allocate a fresh cell
holding a copy, and mutating a cell is writing to its address. -/

/-- A heap of list-of-string cells (arrays and sets of tokens/conflict
descriptions); `next` is the next fresh address, and every live address is
below it. -/
structure Heap where
  data : Nat → List String
  next : Nat

/-- Read the cell at an address. -/
def heapRead (h : Heap) (a : Nat) : List String := h.data a

/-- Mutate the cell at an address (e.g. `push`/`add`/`clear` on the
returned container). -/
def heapWrite (h : Heap) (a : Nat) (v : List String) : Heap :=
  { h with data := fun i => if i = a then v else h.data i }

/-- Allocate a fresh cell holding `v` (`[...xs]`, `new Set(xs)`). -/
def heapAlloc (h : Heap) (v : List String) : Nat × Heap :=
  (h.next, { data := fun i => if i = h.next then v else h.data i, next := h.next + 1 })

/-- The engine's two internal containers, by address. -/
structure MgrRefs where
  pendingAddr : Nat
  conflictsAddr : Nat

/-- `HotkeyManager.getCurrentSequence` (src/hotkeyManager.js:346-348):
`return [...this.currentSequence]`. -/
def getCurrentSequence (h : Heap) (e : MgrRefs) : Nat × Heap :=
  heapAlloc h (heapRead h e.pendingAddr)

/-- `HotkeyManager.getConflicts` (src/hotkeyManager.js:354-356):
`return new Set(this.conflicts)`. -/
def getConflicts (h : Heap) (e : MgrRefs) : Nat × Heap :=
  heapAlloc h (heapRead h e.conflictsAddr)

/-- No occurrence of any of the two-character pairs `M-`, `C-`, `S-`
(the state of a token after the modifier-conversion passes of
`normalizeKeySequence`; it makes the `~S-`/`~C-`/`~M-` strip patterns
unmatchable). -/
def noMCS (s : List Char) : Prop :=
  containsL ['M', '-'] s = false ∧ containsL ['C', '-'] s = false ∧
    containsL ['S', '-'] s = false

/-- A replacement string that can neither empty a token nor (re)create an
`M-`/`C-`/`S-` pair, inside itself or across a junction: non-empty,
contains none of the pairs, does not end in `M`/`C`/`S` and does not begin
with `-`.  Every named-key replacement of `normalizeKeySequence` satisfies
this. -/
def repOkB (r : List Char) : Bool :=
  !r.isEmpty && !containsL ['M', '-'] r && !containsL ['C', '-'] r
    && !containsL ['S', '-'] r && !(r.getLast? == some 'M')
    && !(r.getLast? == some 'C') && !(r.getLast? == some 'S')
    && !(r.head? == some '-')

/-! ## Claims C1-C3, C8-C10 -/

/-! ### Recursion equations for `replaceAllL` -/

theorem replaceFuel_nil (pat rep : List Char) (fuel : Nat) :
    replaceFuel pat rep fuel [] = [] := by
  cases fuel <;> rfl

theorem replaceFuel_of_le (pat rep : List Char) :
    ∀ (n : Nat) (s : List Char), s.length ≤ n →
      ∀ fuel, s.length ≤ fuel →
        replaceFuel pat rep fuel s = replaceFuel pat rep s.length s := by
  intro n
  induction n with
  | zero =>
    intro s hs fuel _
    have : s = [] := List.eq_nil_of_length_eq_zero (Nat.le_zero.mp hs)
    subst this
    rw [replaceFuel_nil, replaceFuel_nil]
  | succ n ih =>
    intro s hs fuel hf
    match s with
    | [] => rw [replaceFuel_nil, replaceFuel_nil]
    | c :: cs =>
      have hcs : cs.length ≤ n := Nat.le_of_succ_le_succ hs
      match fuel, hf with
      | f + 1, hf =>
        have hcf : cs.length ≤ f := Nat.le_of_succ_le_succ hf
        show replaceFuel pat rep (f + 1) (c :: cs)
            = replaceFuel pat rep (cs.length + 1) (c :: cs)
        rw [replaceFuel, replaceFuel]
        have hdn : (cs.drop (pat.length - 1)).length ≤ cs.length := by
          rw [List.length_drop]; exact Nat.sub_le _ _
        by_cases hp : pat.isPrefixOf (c :: cs)
        · simp only [hp, if_true]
          rw [ih _ (Nat.le_trans hdn hcs) f (Nat.le_trans hdn hcf),
            ih _ (Nat.le_trans hdn hcs) cs.length hdn]
        · simp only [hp, Bool.false_eq_true, if_false]
          rw [ih cs hcs f hcf]

/-- Recursion equation for `replaceAllL` on a nonempty string. -/
theorem replaceAllL_cons (pat rep : List Char) (c : Char) (cs : List Char) :
    replaceAllL pat rep (c :: cs) =
      if pat.isPrefixOf (c :: cs) then
        rep ++ replaceAllL pat rep (cs.drop (pat.length - 1))
      else
        c :: replaceAllL pat rep cs := by
  show replaceFuel pat rep (cs.length + 1) (c :: cs) = _
  rw [replaceFuel]
  by_cases hp : pat.isPrefixOf (c :: cs)
  · simp only [hp, if_true]
    rw [replaceFuel_of_le pat rep cs.length _
      (by rw [List.length_drop]; exact Nat.sub_le _ _) cs.length
      (by rw [List.length_drop]; exact Nat.sub_le _ _)]
    rfl
  · simp only [hp, Bool.false_eq_true, if_false]
    rfl

theorem replaceAllL_nil (pat rep : List Char) : replaceAllL pat rep [] = [] := rfl


/-- **C1** (status: code_bug evidence).  The spec's dispatch table says a
`quote-insert` command compiles to `Insert("\"")` and
`specialchar-insert hyphenation` to `Insert(soft hyphen)`; the code's
`command.includes('insert')` branch (src/parser.js:128) runs before the
dedicated `startsWith('quote-insert')` / `startsWith('specialchar-insert')`
branches (src/parser.js:145, 153), which are therefore unreachable, so the
compiled action is `Insert` of the command text with its first word
stripped.  The dead helpers `handleQuoteInsert` / `handleSpecialChar`
would have produced exactly the claimed characters. -/
theorem c1_quote_specialchar_eval :
    parseCommand "quote-insert" = Action.insert "" ∧
    parseCommand "quote-insert outer" = Action.insert "outer" ∧
    parseCommand "specialchar-insert hyphenation" = Action.insert "hyphenation" ∧
    handleQuoteInsert "quote-insert outer" = "\"" ∧
    handleSpecialChar "specialchar-insert hyphenation" = "­" ∧
    Action.insert "outer" ≠ Action.insert "\"" ∧
    Action.insert "hyphenation" ≠ Action.insert "­" := by
  decide

/-- **C2** (status: code_bug evidence).  The spec says the negated
modifier `~S-` is stripped with no Shift token emitted, so `~S-slash`
should normalize to `slash`; but the `S- → Shift+` substitution
(src/parser.js:83) runs before the `~S-` strip (src/parser.js:105) and
consumes the `S-`, so the strip never fires and the result is
`~Shift+slash`. -/
theorem c2_negated_modifier_eval :
    normalizeKeySequence "~S-slash" = "~Shift+slash" ∧
    ("~Shift+slash" : String) ≠ "slash" ∧
    jsIncludes "~Shift+slash" "Shift+" = true := by
  decide

/-- **C3** (counterexample).  The claim says pendingTokens is already
empty when the external sink runs; on the exact match of `"a"` the sink
invocation recorded by `executeAction` (called at src/hotkeyManager.js:169,
*before* `resetSequence` at line 170) sees pendingTokens = `["a"] ≠ []`,
even when the sink throws. -/
theorem c3_counterexample :
    (handleKeyDown
      { initialMgr with
          bindings := [("a", ⟨"a", "a", "self-insert x", Action.insert "x"⟩)] }
      "a" true true true).2
      = [EngineEvent.actionExecuted ["a"] (Action.insert "x") true] ∧
    (["a"] : List String) ≠ [] := by
  decide

/-- **C3** (amended).  On an exact sequence match the engine invokes the
sink first — with pendingTokens still holding the full matched sequence —
and clears pendingTokens and cancels the timer immediately afterwards;
because `executeAction` catches sink failures internally, the resulting
state is Idle regardless of whether the sink throws, and it does not
depend on the sink's outcome. -/
theorem c3_exact_match_order (st : MgrState) (tok : String) (sinkThrows : Bool)
    (b : Binding)
    (hen : st.enabled = true) (htok : tok ≠ "")
    (hb : mapGet st.bindings (joinStr " " (st.currentSequence ++ [tok])) = some b) :
    handleKeyDown st tok true true sinkThrows =
      ({ st with currentSequence := [], timeoutArmed := false },
       [EngineEvent.actionExecuted (st.currentSequence ++ [tok]) b.action sinkThrows])
      ∧ st.currentSequence ++ [tok] ≠ [] := by
  constructor
  · simp [handleKeyDown, hen, htok, hb, resetSequence]
  · simp

/-- Witness for `c3_exact_match_order` at a concrete pending state with a
throwing sink. -/
theorem c3_exact_match_order_witness :
    handleKeyDown
      { initialMgr with
          bindings := [("Alt+m g", ⟨"Alt+m g", "M-m g", "math-insert \\gamma", Action.insert "γ"⟩)],
          currentSequence := ["Alt+m"],
          timeoutArmed := true }
      "g" true true true =
      ({ initialMgr with
          bindings := [("Alt+m g", ⟨"Alt+m g", "M-m g", "math-insert \\gamma", Action.insert "γ"⟩)],
          currentSequence := [],
          timeoutArmed := false },
       [EngineEvent.actionExecuted ["Alt+m", "g"] (Action.insert "γ") true]) := by
  exact (c3_exact_match_order
    { initialMgr with
        bindings := [("Alt+m g", ⟨"Alt+m g", "M-m g", "math-insert \\gamma", Action.insert "γ"⟩)],
        currentSequence := ["Alt+m"],
        timeoutArmed := true }
    "g" true ⟨"Alt+m g", "M-m g", "math-insert \\gamma", Action.insert "γ"⟩
    rfl (by decide) (by decide)).1

/-- **C8** (confirmed).  When the candidate formed by appending the token
is neither an exact table key nor a strict prefix of one, the engine
resets to Idle: pendingTokens is discarded, no sink invocation happens,
and the triggering token is not retried as the start of a new sequence
(the resulting pending list is `[]`, not `[tok]`, even when `tok` itself
is a registered key). -/
theorem c8_dead_end (st : MgrState) (tok : String) (sk : Bool)
    (hen : st.enabled = true) (htok : tok ≠ "")
    (hexact : mapGet st.bindings (joinStr " " (st.currentSequence ++ [tok])) = none)
    (hpre : hasMatchingPrefixOf st.bindings (joinStr " " (st.currentSequence ++ [tok])) = false) :
    handleKeyDown st tok true true sk =
      ({ st with currentSequence := [], timeoutArmed := false }, []) := by
  simp [handleKeyDown, hen, htok, hexact, hpre, resetSequence]

/-- Witness for `c8_dead_end`: pending `["a"]`, token `g`, where `g` alone
*is* a registered key — the dead end still discards everything and does
not start matching `g`. -/
theorem c8_dead_end_witness :
    handleKeyDown
      { initialMgr with
          bindings := [("a b", ⟨"a b", "a b", "c1", Action.command "c1"⟩),
            ("g", ⟨"g", "g", "c2", Action.command "c2"⟩)],
          currentSequence := ["a"],
          timeoutArmed := true }
      "g" true true false =
      ({ initialMgr with
          bindings := [("a b", ⟨"a b", "a b", "c1", Action.command "c1"⟩),
            ("g", ⟨"g", "g", "c2", Action.command "c2"⟩)],
          currentSequence := [],
          timeoutArmed := false }, []) := by
  exact c8_dead_end
    { initialMgr with
        bindings := [("a b", ⟨"a b", "a b", "c1", Action.command "c1"⟩),
          ("g", ⟨"g", "g", "c2", Action.command "c2"⟩)],
        currentSequence := ["a"],
        timeoutArmed := true }
    "g" false rfl (by decide) (by decide) (by decide)

/-- **C9** (confirmed).  The correspondence Idle = (pendingTokens empty,
no timer) / Pending = (pendingTokens non-empty, timer armed) holds
initially and is preserved by every operation: `handleKeyDown` in all of
its branches, the timeout callback, `setEnabled`, `loadBindings` and
`setSequenceTimeout`. -/
theorem c9_state_invariant (st : MgrState) (hst : MgrInv st) :
    (∀ tok e sp sk, MgrInv (handleKeyDown st tok e sp sk).1) ∧
    MgrInv (sequenceTimeoutFire st) ∧
    (∀ b, MgrInv (setEnabled st b)) ∧
    (∀ m, MgrInv (loadBindings st m)) ∧
    (∀ t, MgrInv (setSequenceTimeout st t)) ∧
    MgrInv initialMgr := by
  refine ⟨?_, ?_, ?_, ?_, ?_, ?_⟩
  · intro tok e sp sk
    unfold handleKeyDown
    split
    · exact hst
    · split
      · exact hst
      · split
        · exact hst
        · dsimp only
          split
          · simp [MgrInv, resetSequence]
          · split
            · simp [MgrInv]
            · simp [MgrInv, resetSequence]
  · unfold sequenceTimeoutFire
    split
    · simp [MgrInv, resetSequence]
    · exact hst
  · intro b
    unfold setEnabled
    split
    · simp [MgrInv, resetSequence]
    · exact hst
  · intro m
    exact hst
  · intro t
    exact hst
  · simp [MgrInv, initialMgr]

/-- Witness for `c9_state_invariant` at the freshly constructed engine. -/
theorem c9_state_invariant_witness :
    MgrInv (sequenceTimeoutFire initialMgr) ∧
    MgrInv (handleKeyDown initialMgr "a" true true false).1 := by
  exact ⟨(c9_state_invariant initialMgr (by simp [MgrInv, initialMgr])).2.1,
         (c9_state_invariant initialMgr (by simp [MgrInv, initialMgr])).1 "a" true true false⟩

/-- **C10** (confirmed).  `getCurrentSequence` and `getConflicts` allocate
fresh copies: the returned address differs from both engine-internal
addresses, the copy holds the same contents, and writing any value to the
returned address leaves the engine's pending tokens and conflict set — and
hence the behaviour of any subsequent `handleKeyDown` on a state read back
from them — unchanged. -/
theorem c10_observer_copies (h : Heap) (e : MgrRefs)
    (hp : e.pendingAddr < h.next) (hc : e.conflictsAddr < h.next) :
    (heapRead (getCurrentSequence h e).2 (getCurrentSequence h e).1
        = heapRead h e.pendingAddr ∧
      (getCurrentSequence h e).1 ≠ e.pendingAddr ∧
      (getCurrentSequence h e).1 ≠ e.conflictsAddr ∧
      ∀ v, heapRead (heapWrite (getCurrentSequence h e).2 (getCurrentSequence h e).1 v)
              e.pendingAddr = heapRead h e.pendingAddr ∧
           heapRead (heapWrite (getCurrentSequence h e).2 (getCurrentSequence h e).1 v)
              e.conflictsAddr = heapRead h e.conflictsAddr) ∧
    (heapRead (getConflicts h e).2 (getConflicts h e).1
        = heapRead h e.conflictsAddr ∧
      (getConflicts h e).1 ≠ e.pendingAddr ∧
      (getConflicts h e).1 ≠ e.conflictsAddr ∧
      ∀ v, heapRead (heapWrite (getConflicts h e).2 (getConflicts h e).1 v)
              e.pendingAddr = heapRead h e.pendingAddr ∧
           heapRead (heapWrite (getConflicts h e).2 (getConflicts h e).1 v)
              e.conflictsAddr = heapRead h e.conflictsAddr) ∧
    (∀ (v : List String) (st : MgrState) (tok : String) (ec sp sk : Bool),
      handleKeyDown { st with currentSequence := heapRead (heapWrite (getCurrentSequence h e).2 (getCurrentSequence h e).1 v) e.pendingAddr } tok ec sp sk =
      handleKeyDown { st with currentSequence := heapRead h e.pendingAddr } tok ec sp sk) := by
  have hp' : e.pendingAddr ≠ h.next := Nat.ne_of_lt hp
  have hc' : e.conflictsAddr ≠ h.next := Nat.ne_of_lt hc
  have hfp : ∀ v, heapRead (heapWrite (getCurrentSequence h e).2 (getCurrentSequence h e).1 v)
      e.pendingAddr = heapRead h e.pendingAddr := by
    intro v
    simp [getCurrentSequence, heapAlloc, heapWrite, heapRead, hp']
  refine ⟨⟨?_, ?_, ?_, ?_⟩, ⟨?_, ?_, ?_, ?_⟩, ?_⟩
  · simp [getCurrentSequence, heapAlloc, heapRead]
  · exact fun hEq => hp' hEq.symm
  · exact fun hEq => hc' hEq.symm
  · intro v
    exact ⟨hfp v, by simp [getCurrentSequence, heapAlloc, heapWrite, heapRead, hc']⟩
  · simp [getConflicts, heapAlloc, heapRead]
  · exact fun hEq => hp' hEq.symm
  · exact fun hEq => hc' hEq.symm
  · intro v
    constructor
    · simp [getConflicts, heapAlloc, heapWrite, heapRead, hp']
    · simp [getConflicts, heapAlloc, heapWrite, heapRead, hc']
  · intro v st tok ec sp sk
    rw [hfp v]

/-- Witness for `c10_observer_copies` at a concrete two-cell heap. -/
theorem c10_observer_copies_witness :
    (getCurrentSequence { data := fun _ => ["Alt+m"], next := 2 } ⟨0, 1⟩).1 ≠ 0 ∧
    ∀ v, heapRead
        (heapWrite (getCurrentSequence { data := fun _ => ["Alt+m"], next := 2 } ⟨0, 1⟩).2
          (getCurrentSequence { data := fun _ => ["Alt+m"], next := 2 } ⟨0, 1⟩).1 v) 0
      = heapRead { data := fun _ => ["Alt+m"], next := 2 } 0 := by
  refine ⟨(c10_observer_copies _ ⟨0, 1⟩ (by decide) (by decide)).1.2.1, fun v => ?_⟩
  exact ((c10_observer_copies _ ⟨0, 1⟩ (by decide) (by decide)).1.2.2.2 v).1

/-! ## Claim C4: treatment of malformed configuration lines -/

theorem head_of_isPrefixOf {a : Char} {p l : List Char}
    (h : List.isPrefixOf (a :: p) l = true) : ∃ t, l = a :: t := by
  cases l with
  | nil => simp [List.isPrefixOf] at h
  | cons c cs =>
    simp [List.isPrefixOf] at h
    exact ⟨cs, by rw [h.1]⟩

theorem parseLine_logs (acc : ParseResult) (line : String) :
    ∃ ext, (parseLine acc line).logs = acc.logs ++ ext := by
  unfold parseLine
  dsimp only
  split
  · exact ⟨[], (List.append_nil _).symm⟩
  · split
    · exact ⟨[], (List.append_nil _).symm⟩
    · split
      · split
        · next b logs1 _ =>
            exact ⟨logs1 ++ [LogEntry.debugParsed b.keySequence b.command], by simp⟩
        · next logs1 _ => exact ⟨logs1, rfl⟩
      · exact ⟨[], (List.append_nil _).symm⟩

theorem foldl_parseLine_logs (ls : List String) :
    ∀ acc : ParseResult, ∃ ext, (ls.foldl parseLine acc).logs = acc.logs ++ ext := by
  induction ls with
  | nil => intro acc; exact ⟨[], (List.append_nil _).symm⟩
  | cons l ls ih =>
    intro acc
    obtain ⟨e1, h1⟩ := parseLine_logs acc l
    obtain ⟨e2, h2⟩ := ih (parseLine acc l)
    exact ⟨e1 ++ e2, by rw [List.foldl_cons, h2, h1, List.append_assoc]⟩

theorem mem_foldl_parseLine_logs {x : LogEntry} (ls : List String) (acc : ParseResult)
    (h : x ∈ acc.logs) : x ∈ (ls.foldl parseLine acc).logs := by
  obtain ⟨e, he⟩ := foldl_parseLine_logs ls acc
  rw [he]
  exact List.mem_append_left _ h

theorem warn_mem_parseLine (acc : ParseResult) (line : String)
    (hb : List.isPrefixOf "\\bind".data (jsTrim line).data = true)
    (hm : matchBindLine (jsTrim line).data = none) :
    LogEntry.warnInvalidFormat (jsTrim line) ∈ (parseLine acc line).logs := by
  have hne : ¬(jsTrim line = "") := by
    intro heq
    rw [heq] at hb
    exact absurd hb (by decide)
  have hnh : ¬(List.isPrefixOf "#".data (jsTrim line).data = true) := by
    intro hh
    obtain ⟨t1, ht1⟩ := head_of_isPrefixOf (a := '\\') (p := "bind".data) hb
    obtain ⟨t2, ht2⟩ := head_of_isPrefixOf (a := '#') (p := []) hh
    rw [ht1] at ht2
    injection ht2 with hcc _
    exact absurd hcc (by decide)
  have hpb : parseBindLine (jsTrim line) =
      (none, [LogEntry.warnInvalidFormat (jsTrim line)]) := by
    unfold parseBindLine
    rw [hm]
  unfold parseLine
  dsimp only
  rw [if_neg hne, if_neg hnh, if_pos hb, hpb]
  exact List.mem_append_right _ (List.mem_singleton.mpr rfl)

theorem mapSet_mem {m : List (String × Binding)} {k : String} {v : Binding}
    {p : String × Binding} (h : p ∈ mapSet m k v) : p ∈ m ∨ p = (k, v) := by
  unfold mapSet at h
  split at h
  · rw [List.mem_map] at h
    obtain ⟨q, hq, heq⟩ := h
    by_cases hk : (q.1 == k) = true
    · right; rw [← heq, if_pos hk]
    · left
      rw [← heq, if_neg hk]
      exact hq
  · rcases List.mem_append.mp h with h1 | h1
    · exact Or.inl h1
    · right; simpa using h1

theorem foldl_parseLine_bindings (ls : List String) :
    ∀ (acc : ParseResult) (p : String × Binding),
      p ∈ (ls.foldl parseLine acc).bindings →
      p ∈ acc.bindings ∨
        ∃ line, line ∈ ls ∧ (parseBindLine (jsTrim line)).1 = some p.2 ∧
          p.1 = p.2.keySequence := by
  induction ls with
  | nil => intro acc p h; exact Or.inl h
  | cons l ls ih =>
    intro acc p h
    rw [List.foldl_cons] at h
    rcases ih (parseLine acc l) p h with h1 | h1
    · unfold parseLine at h1
      dsimp only at h1
      split at h1
      · exact Or.inl h1
      · split at h1
        · exact Or.inl h1
        · split at h1
          · split at h1
            · next b logs1 heq =>
                rcases mapSet_mem h1 with h2 | h2
                · exact Or.inl h2
                · right
                  refine ⟨l, List.mem_cons_self _ _, ?_, ?_⟩
                  · rw [heq]
                    rw [h2]
                  · rw [h2]
            · next logs1 heq => exact Or.inl h1
          · exact Or.inl h1
    · obtain ⟨line, hmem, h2⟩ := h1
      exact Or.inr ⟨line, List.mem_cons_of_mem _ hmem, h2⟩

/-- **C4** (counterexample).  The claim says every malformed line is
reported together with its 1-based line number.  On the single malformed
line `\bind oops` the complete log is the `warn` without any line number
(src/parser.js:59) plus the final `info`: the only log call that would
carry a line number is the `catch` block (src/parser.js:39), which cannot
fire because `parseBindLine` performs only total string operations. -/
theorem c4_counterexample :
    (parse "\\bind oops").logs =
      [LogEntry.warnInvalidFormat "\\bind oops", LogEntry.infoParsedCount 0] ∧
    hasLineNumberEntry (parse "\\bind oops").logs = false ∧
    (parse "\\bind oops").bindings = [] := by
  decide

/-- **C4** (amended).  `compile` is total by construction; every line
whose trimmed form starts with `\bind` but fails the bind-line grammar is
skipped and reported to the log collaborator — but *without* its line
number — and every binding in the resulting table comes from some line
that parsed successfully (malformed lines contribute nothing); the result
is always a (possibly empty) binding table. -/
theorem c4_malformed_lines (content : String) :
    (∀ line, line ∈ linesOf content →
      List.isPrefixOf "\\bind".data (jsTrim line).data = true →
      matchBindLine (jsTrim line).data = none →
      LogEntry.warnInvalidFormat (jsTrim line) ∈ (parse content).logs) ∧
    (∀ p, p ∈ (parse content).bindings →
      ∃ line, line ∈ linesOf content ∧ (parseBindLine (jsTrim line)).1 = some p.2 ∧
        p.1 = p.2.keySequence) := by
  constructor
  · intro line hline hb hm
    obtain ⟨l1, l2, hsplit⟩ := List.append_of_mem hline
    unfold parse
    dsimp only
    apply List.mem_append_left
    rw [hsplit, List.foldl_append, List.foldl_cons]
    apply mem_foldl_parseLine_logs
    exact warn_mem_parseLine _ _ hb hm
  · intro p hp
    unfold parse at hp
    dsimp only at hp
    rcases foldl_parseLine_bindings (linesOf content)
        { bindings := [], logs := [] } p hp with h | h
    · simp at h
    · exact h

/-- Witness for `c4_malformed_lines` on the malformed line `\bind oops`:
the warn entry (without line number) is in the log. -/
theorem c4_malformed_lines_witness :
    LogEntry.warnInvalidFormat (jsTrim "\\bind oops") ∈ (parse "\\bind oops").logs := by
  exact (c4_malformed_lines "\\bind oops").1 "\\bind oops"
    (by decide) (by decide) (by decide)

/-! ## Claim C6: conflict detection -/

theorem beq_comm' {α : Type} [BEq α] [LawfulBEq α] (a b : α) : (a == b) = (b == a) := by
  by_cases h : a = b
  · subst h; rfl
  · rw [beq_eq_false_iff_ne.mpr h, beq_eq_false_iff_ne.mpr (Ne.symm h)]

theorem sharedEq_symm : ∀ as bs : List String, sharedEq as bs = sharedEq bs as := by
  intro as
  induction as with
  | nil => intro bs; cases bs <;> rfl
  | cons a as ih =>
    intro bs
    cases bs with
    | nil => rfl
    | cons b bs =>
      show (a == b && sharedEq as bs) = (b == a && sharedEq bs as)
      rw [ih bs, beq_comm' a b]

theorem sharedEq_iff : ∀ as bs : List String,
    sharedEq as bs = true ↔ (∃ t, bs = as ++ t) ∨ (∃ t, as = bs ++ t) := by
  intro as
  induction as with
  | nil =>
    intro bs
    constructor
    · intro _; exact Or.inl ⟨bs, rfl⟩
    · intro _; cases bs <;> rfl
  | cons a as ih =>
    intro bs
    cases bs with
    | nil =>
      constructor
      · intro _; exact Or.inr ⟨a :: as, rfl⟩
      · intro _; rfl
    | cons b bs =>
      show (a == b && sharedEq as bs) = true ↔ _
      rw [Bool.and_eq_true, beq_iff_eq, ih bs]
      constructor
      · rintro ⟨hab, ⟨t, ht⟩ | ⟨t, ht⟩⟩
        · exact Or.inl ⟨t, by rw [List.cons_append, ← hab, ht]⟩
        · exact Or.inr ⟨t, by rw [List.cons_append, hab, ht]⟩
      · rintro (⟨t, ht⟩ | ⟨t, ht⟩)
        · rw [List.cons_append] at ht
          injection ht with h1 h2
          exact ⟨h1.symm, Or.inl ⟨t, h2⟩⟩
        · rw [List.cons_append] at ht
          injection ht with h1 h2
          exact ⟨h1, Or.inr ⟨t, h2⟩⟩

theorem hasConflict_symm (s1 s2 : String) : hasConflict s1 s2 = hasConflict s2 s1 := by
  unfold hasConflict
  rw [sharedEq_symm, beq_comm' (jsSplit ' ' s1).length (jsSplit ' ' s2).length]

theorem hasConflict_iff (s1 s2 : String) :
    hasConflict s1 s2 = true ↔
      ((∃ t, t ≠ [] ∧ jsSplit ' ' s2 = jsSplit ' ' s1 ++ t) ∨
       (∃ t, t ≠ [] ∧ jsSplit ' ' s1 = jsSplit ' ' s2 ++ t)) := by
  unfold hasConflict
  rw [Bool.and_eq_true, sharedEq_iff]
  constructor
  · rintro ⟨h | h, hlen⟩
    · obtain ⟨t, ht⟩ := h
      have hne : (jsSplit ' ' s1).length ≠ (jsSplit ' ' s2).length := by
        intro h0
        rw [h0] at hlen
        simp at hlen
      refine Or.inl ⟨t, ?_, ht⟩
      intro h0
      subst h0
      rw [List.append_nil] at ht
      exact hne (by rw [ht])
    · obtain ⟨t, ht⟩ := h
      have hne : (jsSplit ' ' s1).length ≠ (jsSplit ' ' s2).length := by
        intro h0
        rw [h0] at hlen
        simp at hlen
      refine Or.inr ⟨t, ?_, ht⟩
      intro h0
      subst h0
      rw [List.append_nil] at ht
      exact hne (by rw [ht])
  · rintro (⟨t, ht0, ht⟩ | ⟨t, ht0, ht⟩)
    · have htl : t.length ≠ 0 := fun h => ht0 (List.length_eq_zero.mp h)
      refine ⟨Or.inl ⟨t, ht⟩, ?_⟩
      rw [ht, List.length_append]
      simp only [Bool.not_eq_true', beq_eq_false_iff_ne]
      omega
    · have htl : t.length ≠ 0 := fun h => ht0 (List.length_eq_zero.mp h)
      refine ⟨Or.inr ⟨t, ht⟩, ?_⟩
      rw [ht, List.length_append]
      simp only [Bool.not_eq_true', beq_eq_false_iff_ne]
      omega

theorem conflictPairs_sound : ∀ (l : List String) (p : String × String),
    p ∈ conflictPairs l → hasConflict p.1 p.2 = true := by
  intro l
  induction l with
  | nil => intro p h; simp [conflictPairs] at h
  | cons s rest ih =>
    intro p h
    unfold conflictPairs at h
    rcases List.mem_append.mp h with h1 | h1
    · rw [List.mem_map] at h1
      obtain ⟨s2, hs2, heq⟩ := h1
      rw [List.mem_filter] at hs2
      rw [← heq]
      exact hs2.2
    · exact ih p h1

theorem conflictPairs_mem_iff : ∀ (l : List String) (a b : String),
    a ∈ l → b ∈ l → a ≠ b →
    (((a, b) ∈ conflictPairs l ∨ (b, a) ∈ conflictPairs l) ↔
      hasConflict a b = true) := by
  intro l
  induction l with
  | nil => intro a b ha _ _; exact absurd ha (List.not_mem_nil a)
  | cons s rest ih =>
    intro a b ha hb hab
    constructor
    · rintro (h | h)
      · exact conflictPairs_sound _ _ h
      · have h2 := conflictPairs_sound _ _ h
        rw [hasConflict_symm]
        exact h2
    · intro hcf
      rcases List.mem_cons.mp ha with ha1 | ha1
      · subst ha1
        have hbr : b ∈ rest := by
          rcases List.mem_cons.mp hb with hb1 | hb1
          · exact absurd hb1.symm hab
          · exact hb1
        left
        unfold conflictPairs
        apply List.mem_append_left
        rw [List.mem_map]
        exact ⟨b, List.mem_filter.mpr ⟨hbr, hcf⟩, rfl⟩
      · rcases List.mem_cons.mp hb with hb1 | hb1
        · subst hb1
          right
          unfold conflictPairs
          apply List.mem_append_left
          rw [List.mem_map]
          refine ⟨a, List.mem_filter.mpr ⟨ha1, ?_⟩, rfl⟩
          rw [hasConflict_symm]
          exact hcf
        · rcases (ih a b ha1 hb1 hab).mpr hcf with h | h
          · left
            unfold conflictPairs
            exact List.mem_append_right _ h
          · right
            unfold conflictPairs
            exact List.mem_append_right _ h

/-- **C6** (confirmed).  `hasConflict` holds of two sequence strings iff
the split-on-space token list of one is a strict prefix of the other's;
it is symmetric; a pair of distinct registered sequences is flagged by the
`detectConflicts` double loop (in one of the two orders) iff `hasConflict`
holds of it — a characterization independent of registration order — and
`detectConflicts` reports exactly the flagged pairs as `"s1 <-> s2"`
strings; concretely `{"Alt+m", "Alt+m g"}` conflicts while
`{"Alt+m f", "Alt+m g"}` does not. -/
theorem c6_conflict_characterization :
    (∀ s1 s2 : String, hasConflict s1 s2 = true ↔
      ((∃ t, t ≠ [] ∧ jsSplit ' ' s2 = jsSplit ' ' s1 ++ t) ∨
       (∃ t, t ≠ [] ∧ jsSplit ' ' s1 = jsSplit ' ' s2 ++ t))) ∧
    (∀ s1 s2 : String, hasConflict s1 s2 = hasConflict s2 s1) ∧
    (∀ (l : List String) (a b : String), a ∈ l → b ∈ l → a ≠ b →
      (((a, b) ∈ conflictPairs l ∨ (b, a) ∈ conflictPairs l) ↔
        hasConflict a b = true)) ∧
    (∀ l : List String,
      detectConflicts l = (conflictPairs l).map (fun p => p.1 ++ " <-> " ++ p.2)) ∧
    hasConflict "Alt+m" "Alt+m g" = true ∧
    hasConflict "Alt+m f" "Alt+m g" = false := by
  exact ⟨hasConflict_iff, hasConflict_symm, conflictPairs_mem_iff,
    fun _ => rfl, by decide, by decide⟩

/-- Witness for `c6_conflict_characterization`: the pair
`{"Alt+m", "Alt+m g"}` is flagged by the registration-order loop. -/
theorem c6_conflict_characterization_witness :
    ("Alt+m", "Alt+m g") ∈ conflictPairs ["Alt+m", "Alt+m g"] ∨
    ("Alt+m g", "Alt+m") ∈ conflictPairs ["Alt+m", "Alt+m g"] := by
  exact (c6_conflict_characterization.2.2.1 ["Alt+m", "Alt+m g"] "Alt+m" "Alt+m g"
    (by decide) (by decide) (by decide)).mpr (by decide)

/-! ## Claim C7: export/import round trip -/

theorem mapSet_keys_mem {m : List (String × Binding)} {k : String} {v : Binding}
    (h : m.any (fun p => p.1 == k) = true) :
    (mapSet m k v).map (fun p => p.1) = m.map (fun p => p.1) := by
  unfold mapSet
  rw [if_pos h, List.map_map]
  apply List.map_congr_left
  intro q _
  by_cases hq : (q.1 == k) = true
  · show (if q.1 == k then (k, v) else q).1 = q.1
    rw [if_pos hq]
    exact (eq_of_beq hq).symm
  · show (if q.1 == k then (k, v) else q).1 = q.1
    rw [if_neg hq]

theorem mapSet_keys_not_mem {m : List (String × Binding)} {k : String} {v : Binding}
    (h : ¬(m.any (fun p => p.1 == k) = true)) :
    (mapSet m k v).map (fun p => p.1) = m.map (fun p => p.1) ++ [k] := by
  unfold mapSet
  rw [if_neg h, List.map_append]
  rfl

theorem key_not_mem_of_not_any {m : List (String × Binding)} {k : String}
    (h : ¬(m.any (fun p => p.1 == k) = true)) : k ∉ m.map (fun p => p.1) := by
  intro hmem
  rw [List.mem_map] at hmem
  obtain ⟨q, hq, hqk⟩ := hmem
  exact h (List.any_eq_true.mpr ⟨q, hq, beq_iff_eq.mpr hqk⟩)

theorem not_any_of_key_not_mem {m : List (String × Binding)} {k : String}
    (h : k ∉ m.map (fun p => p.1)) : ¬(m.any (fun p => p.1 == k) = true) := by
  intro hany
  obtain ⟨q, hq, hqk⟩ := List.any_eq_true.mp hany
  exact h (List.mem_map.mpr ⟨q, hq, eq_of_beq hqk⟩)

theorem nodupKeys_mapSet {m : List (String × Binding)} {k : String} {v : Binding}
    (h : nodupKeys m) : nodupKeys (mapSet m k v) := by
  unfold nodupKeys at h ⊢
  by_cases hany : m.any (fun p => p.1 == k) = true
  · rw [mapSet_keys_mem hany]
    exact h
  · rw [mapSet_keys_not_mem hany]
    rw [List.nodup_append]
    refine ⟨h, List.nodup_singleton k, ?_⟩
    intro x hx hx1
    rw [List.mem_singleton] at hx1
    subst hx1
    exact key_not_mem_of_not_any hany hx

theorem nodupKeys_parseLine (acc : ParseResult) (line : String)
    (h : nodupKeys acc.bindings) : nodupKeys (parseLine acc line).bindings := by
  unfold parseLine
  dsimp only
  split
  · exact h
  · split
    · exact h
    · split
      · split
        · next b logs1 _ => exact nodupKeys_mapSet h
        · next logs1 _ => exact h
      · exact h

theorem nodupKeys_foldl (ls : List String) :
    ∀ acc : ParseResult, nodupKeys acc.bindings →
      nodupKeys ((ls.foldl parseLine acc).bindings) := by
  induction ls with
  | nil => intro acc h; exact h
  | cons l ls ih =>
    intro acc h
    rw [List.foldl_cons]
    exact ih _ (nodupKeys_parseLine acc l h)

theorem nodupKeys_parse (content : String) : nodupKeys (parse content).bindings := by
  unfold parse
  dsimp only
  exact nodupKeys_foldl _ _ (by simp [nodupKeys])

theorem foldl_mapSet_append : ∀ (l acc : List (String × Binding)),
    nodupKeys (acc ++ l) →
    l.foldl (fun acc kv => mapSet acc kv.1 kv.2) acc = acc ++ l := by
  intro l
  induction l with
  | nil =>
    intro acc _
    rw [List.append_nil]
    rfl
  | cons kv l ih =>
    intro acc h
    rw [List.foldl_cons]
    have hk : kv.1 ∉ acc.map (fun p => p.1) := by
      unfold nodupKeys at h
      rw [List.map_append, List.nodup_append] at h
      intro hmem
      exact h.2.2 hmem (by simp)
    have hset : mapSet acc kv.1 kv.2 = acc ++ [kv] := by
      unfold mapSet
      rw [if_neg (not_any_of_key_not_mem hk)]
    rw [hset]
    have h2 : nodupKeys ((acc ++ [kv]) ++ l) := by
      rw [List.append_assoc]
      exact h
    rw [ih (acc ++ [kv]) h2, List.append_assoc]
    rfl

theorem foldl_jsObjectSet_eq : ∀ (l acc : List (String × Binding)),
    (∀ kv ∈ l, kv.1 ≠ "__proto__") →
    l.foldl (fun acc kv => jsObjectSet acc kv.1 kv.2) acc =
      l.foldl (fun acc kv => mapSet acc kv.1 kv.2) acc := by
  intro l
  induction l with
  | nil => intro acc _; rfl
  | cons kv l ih =>
    intro acc h
    rw [List.foldl_cons, List.foldl_cons]
    have hkv : kv.1 ≠ "__proto__" := h kv (List.mem_cons_self _ _)
    rw [show jsObjectSet acc kv.1 kv.2 = mapSet acc kv.1 kv.2 from by
      unfold jsObjectSet; rw [if_neg hkv]]
    exact ih _ (fun q hq => h q (List.mem_cons_of_mem _ hq))

theorem jsObjectEntries_perm (m : List (String × Binding)) :
    (jsObjectEntries m).Perm m := by
  unfold jsObjectEntries
  refine List.Perm.trans (List.Perm.append_right _ (List.perm_insertionSort _ _)) ?_
  exact List.filter_append_perm _ m

/-- **C7** (counterexample).  The configuration line `\bind "__proto__" "x"`
compiles to a one-entry table under the key `"__proto__"`.  Exporting it
assigns `exported["__proto__"] = binding`, which invokes the inherited
`__proto__` setter and creates no own property, so `Object.entries` sees
nothing and the re-imported table is empty: the binding is lost and
`importBindings (exportBindings T) ≠ T`. -/
theorem c7_proto_loss :
    (parse "\\bind \"__proto__\" \"x\"").bindings.map (fun p => p.1) = ["__proto__"] ∧
    importBindings (exportBindings (parse "\\bind \"__proto__\" \"x\"").bindings) = [] ∧
    importBindings (exportBindings (parse "\\bind \"__proto__\" \"x\"").bindings) ≠
      (parse "\\bind \"__proto__\" \"x\"").bindings := by
  decide

/-- **C7** (amended).  For every compiled binding table with no binding
under the key `"__proto__"`, `importBindings (exportBindings T)`
reproduces the same set of sequence-serialization→Binding pairs: no
binding is lost, added, or altered by the round trip through the plain
key→Binding object (when integer-like keys are present, `Object.entries`
enumerates them first, so insertion order may change, but the set of
pairs is preserved). -/
theorem c7_round_trip (content : String)
    (hpr : "__proto__" ∉ (parse content).bindings.map (fun p => p.1)) :
    ∀ p : String × Binding,
      p ∈ importBindings (exportBindings (parse content).bindings) ↔
        p ∈ (parse content).bindings := by
  have hnp : ∀ kv ∈ (parse content).bindings, kv.1 ≠ "__proto__" := by
    intro kv hkv heq
    exact hpr (List.mem_map.mpr ⟨kv, hkv, heq⟩)
  have hexp : exportBindings (parse content).bindings = (parse content).bindings := by
    unfold exportBindings
    rw [foldl_jsObjectSet_eq _ [] hnp]
    have h2 : nodupKeys (([] : List (String × Binding)) ++ (parse content).bindings) := by
      rw [List.nil_append]
      exact nodupKeys_parse content
    rw [foldl_mapSet_append _ [] h2, List.nil_append]
  have hperm := jsObjectEntries_perm (parse content).bindings
  have hnodup : nodupKeys (jsObjectEntries (parse content).bindings) := by
    unfold nodupKeys
    have h0 : ((parse content).bindings.map (fun p => p.1)).Nodup := nodupKeys_parse content
    exact (List.Perm.nodup_iff (hperm.map (fun p : String × Binding => p.1))).mpr h0
  have himp : importBindings (parse content).bindings =
      jsObjectEntries (parse content).bindings := by
    unfold importBindings
    have h2 : nodupKeys (([] : List (String × Binding)) ++
        jsObjectEntries (parse content).bindings) := by
      rw [List.nil_append]
      exact hnodup
    rw [foldl_mapSet_append _ [] h2, List.nil_append]
  intro p
  rw [hexp, himp]
  exact hperm.mem_iff

/-- Witness for `c7_round_trip`: the table compiled from
`\bind "a" "self-insert z"` (no `__proto__` key) retains its single
binding through the round trip. -/
theorem c7_round_trip_witness :
    ("a", (⟨"a", "a", "self-insert z", Action.insert "z"⟩ : Binding)) ∈
      importBindings (exportBindings (parse "\\bind \"a\" \"self-insert z\"").bindings) ↔
    ("a", (⟨"a", "a", "self-insert z", Action.insert "z"⟩ : Binding)) ∈
      (parse "\\bind \"a\" \"self-insert z\"").bindings := by
  exact c7_round_trip "\\bind \"a\" \"self-insert z\"" (by decide)
    ("a", ⟨"a", "a", "self-insert z", Action.insert "z"⟩)

/-! ## Claim C5: shape of the normalized key sequence

The substitutions of `normalizeKeySequence` never contain the space
character, in a pattern or in a replacement, so they act chunk-wise on the
space-separated decomposition of the key-spec.  The lemmas below establish
this distribution property for a single `replaceAllL` pass and then chain
it over `normalizePassList`. -/

theorem splitCh_ne_nil (sep : Char) : ∀ s : List Char, splitCh sep s ≠ [] := by
  intro s
  cases s with
  | nil => simp [splitCh]
  | cons c cs =>
    unfold splitCh
    by_cases hc : c = sep
    · rw [if_pos hc]
      simp
    · rw [if_neg hc]
      split <;> simp

theorem splitCh_cons_sep (sep : Char) (cs : List Char) :
    splitCh sep (sep :: cs) = [] :: splitCh sep cs := by
  conv_lhs => unfold splitCh
  rw [if_pos rfl]

theorem splitCh_cons_ne (sep c : Char) (cs : List Char) (hc : c ≠ sep) :
    splitCh sep (c :: cs) =
      (c :: (splitCh sep cs).headI) :: (splitCh sep cs).tail := by
  conv_lhs => unfold splitCh
  rw [if_neg hc]
  rcases h : splitCh sep cs with _ | ⟨h1, t1⟩
  · exact absurd h (splitCh_ne_nil sep cs)
  · rfl

theorem splitCh_append_not_mem (sep : Char) :
    ∀ (a x : List Char), sep ∉ a →
      splitCh sep (a ++ x) =
        (a ++ (splitCh sep x).headI) :: (splitCh sep x).tail := by
  intro a
  induction a with
  | nil =>
    intro x _
    rcases h : splitCh sep x with _ | ⟨h1, t1⟩
    · exact absurd h (splitCh_ne_nil sep x)
    · rw [List.nil_append, h]
      rfl
  | cons c a ih =>
    intro x ha
    have hc : c ≠ sep := fun h => ha (by rw [h]; exact List.mem_cons_self _ _)
    have ha' : sep ∉ a := fun h => ha (List.mem_cons_of_mem _ h)
    rw [List.cons_append, splitCh_cons_ne sep c (a ++ x) hc, ih x ha']
    rfl

theorem mem_of_mem_splitCh (sep : Char) :
    ∀ (s t : List Char), t ∈ splitCh sep s → ∀ x ∈ t, x ∈ s := by
  intro s
  induction s with
  | nil =>
    intro t ht x hx
    simp [splitCh] at ht
    subst ht
    exact absurd hx (List.not_mem_nil x)
  | cons c cs ih =>
    intro t ht x hx
    by_cases hc : c = sep
    · subst hc
      rw [splitCh_cons_sep] at ht
      rcases List.mem_cons.mp ht with h1 | h1
      · subst h1
        exact absurd hx (List.not_mem_nil x)
      · exact List.mem_cons_of_mem _ (ih t h1 x hx)
    · rw [splitCh_cons_ne sep c cs hc] at ht
      rcases hsp : splitCh sep cs with _ | ⟨h1, t1⟩
      · exact absurd hsp (splitCh_ne_nil sep cs)
      · rw [hsp] at ht
        rcases List.mem_cons.mp ht with h2 | h2
        · subst h2
          rcases List.mem_cons.mp hx with h3 | h3
          · subst h3
            exact List.mem_cons_self x cs
          · refine List.mem_cons_of_mem _ (ih h1 ?_ x h3)
            rw [hsp]
            exact List.mem_cons_self _ _
        · refine List.mem_cons_of_mem _ (ih t ?_ x hx)
          rw [hsp]
          exact List.mem_cons_of_mem _ h2

theorem splitCh_headI_prefix (sep : Char) :
    ∀ s : List Char, ∃ t, s = (splitCh sep s).headI ++ t := by
  intro s
  induction s with
  | nil => exact ⟨[], rfl⟩
  | cons c cs ih =>
    by_cases hc : c = sep
    · rw [hc, splitCh_cons_sep]
      exact ⟨sep :: cs, rfl⟩
    · rw [splitCh_cons_ne sep c cs hc]
      obtain ⟨t, ht⟩ := ih
      exact ⟨t, by rw [List.headI_cons, List.cons_append, ← ht]⟩

theorem splitCh_append_sep (sep : Char) :
    ∀ xs : List Char, ∃ pre, pre ≠ [] ∧ splitCh sep (xs ++ [sep]) = pre ++ [[]] := by
  intro xs
  induction xs with
  | nil => exact ⟨[[]], by decide, by rw [List.nil_append, splitCh_cons_sep]; rfl⟩
  | cons c xs ih =>
    obtain ⟨pre, hpre, hsp⟩ := ih
    by_cases hc : c = sep
    · subst hc
      rw [List.cons_append, splitCh_cons_sep, hsp]
      exact ⟨[] :: pre, by simp, rfl⟩
    · rw [List.cons_append, splitCh_cons_ne sep c (xs ++ [sep]) hc, hsp]
      rcases pre with _ | ⟨p0, ps⟩
      · exact absurd rfl hpre
      · refine ⟨(c :: p0) :: ps, by simp, ?_⟩
        rfl

theorem isPrefixOf_iff_exists : ∀ p l : List Char,
    List.isPrefixOf p l = true ↔ ∃ t, l = p ++ t := by
  intro p
  induction p with
  | nil =>
    intro l
    constructor
    · intro _; exact ⟨l, rfl⟩
    · intro _; cases l <;> rfl
  | cons a p ih =>
    intro l
    cases l with
    | nil =>
      constructor
      · intro h; exact absurd h (by simp [List.isPrefixOf])
      · rintro ⟨t, ht⟩; exact absurd ht (by simp)
    | cons c cs =>
      show (a == c && List.isPrefixOf p cs) = true ↔ _
      rw [Bool.and_eq_true, beq_iff_eq, ih cs]
      constructor
      · rintro ⟨hac, t, ht⟩
        exact ⟨t, by rw [List.cons_append, ← hac, ht]⟩
      · rintro ⟨t, ht⟩
        rw [List.cons_append] at ht
        injection ht with h1 h2
        exact ⟨h1.symm, t, h2⟩

theorem replaceAllL_append_self (pat rep : List Char) (hp : pat ≠ []) (x : List Char) :
    replaceAllL pat rep (pat ++ x) = rep ++ replaceAllL pat rep x := by
  rcases pat with _ | ⟨p0, pat'⟩
  · exact absurd rfl hp
  · rw [List.cons_append, replaceAllL_cons]
    have hpre : List.isPrefixOf (p0 :: pat') (p0 :: (pat' ++ x)) = true := by
      rw [isPrefixOf_iff_exists]
      exact ⟨x, by rw [List.cons_append]⟩
    rw [if_pos hpre]
    have : (pat' ++ x).drop ((p0 :: pat').length - 1) = x := by
      have : (p0 :: pat').length - 1 = pat'.length := by simp
      rw [this, List.drop_left]
    rw [this]

theorem mem_replaceAllL (pat rep : List Char) :
    ∀ (n : Nat) (s : List Char), s.length ≤ n →
      ∀ x, x ∈ replaceAllL pat rep s → x ∈ s ∨ x ∈ rep := by
  intro n
  induction n with
  | zero =>
    intro s hs x hx
    have : s = [] := List.eq_nil_of_length_eq_zero (Nat.le_zero.mp hs)
    subst this
    rw [replaceAllL_nil] at hx
    exact absurd hx (List.not_mem_nil x)
  | succ n ih =>
    intro s hs x hx
    cases s with
    | nil =>
      rw [replaceAllL_nil] at hx
      exact absurd hx (List.not_mem_nil x)
    | cons c cs =>
      rw [replaceAllL_cons] at hx
      by_cases hpre : List.isPrefixOf pat (c :: cs) = true
      · rw [if_pos hpre] at hx
        rcases List.mem_append.mp hx with h1 | h1
        · exact Or.inr h1
        · have hlen : (cs.drop (pat.length - 1)).length ≤ n := by
            rw [List.length_drop]
            exact Nat.le_trans (Nat.sub_le _ _) (Nat.le_of_succ_le_succ hs)
          rcases ih _ hlen x h1 with h2 | h2
          · exact Or.inl (List.mem_cons_of_mem _ (List.mem_of_mem_drop h2))
          · exact Or.inr h2
      · rw [if_neg hpre] at hx
        rcases List.mem_cons.mp hx with h1 | h1
        · exact Or.inl (h1 ▸ List.mem_cons_self c cs)
        · rcases ih cs (Nat.le_of_succ_le_succ hs) x h1 with h2 | h2
          · exact Or.inl (List.mem_cons_of_mem _ h2)
          · exact Or.inr h2

theorem replaceAllL_ne_nil (pat rep : List Char) (hr : rep ≠ []) {s : List Char}
    (hs : s ≠ []) : replaceAllL pat rep s ≠ [] := by
  cases s with
  | nil => exact absurd rfl hs
  | cons c cs =>
    rw [replaceAllL_cons]
    by_cases hpre : List.isPrefixOf pat (c :: cs) = true
    · rw [if_pos hpre]
      intro h
      exact hr (List.append_eq_nil.mp h).1
    · rw [if_neg hpre]
      simp

theorem headI_map (f : List Char → List Char) (l : List (List Char)) (h : l ≠ []) :
    (l.map f).headI = f l.headI := by
  cases l with
  | nil => exact absurd rfl h
  | cons x xs => rfl

theorem tail_map (f : List Char → List Char) (l : List (List Char)) :
    (l.map f).tail = l.tail.map f := by
  cases l <;> rfl

theorem splitCh_replaceAllL (pat rep : List Char) (hp : pat ≠ [])
    (hps : ' ' ∉ pat) (hrs : ' ' ∉ rep) :
    ∀ (n : Nat) (s : List Char), s.length ≤ n →
      splitCh ' ' (replaceAllL pat rep s) =
        (splitCh ' ' s).map (replaceAllL pat rep) := by
  intro n
  induction n with
  | zero =>
    intro s hs
    have : s = [] := List.eq_nil_of_length_eq_zero (Nat.le_zero.mp hs)
    subst this
    rw [replaceAllL_nil]
    rfl
  | succ n ih =>
    intro s hs
    cases s with
    | nil =>
      rw [replaceAllL_nil]
      rfl
    | cons c cs =>
      have hcs : cs.length ≤ n := Nat.le_of_succ_le_succ hs
      by_cases hpre : List.isPrefixOf pat (c :: cs) = true
      · obtain ⟨t, ht⟩ := (isPrefixOf_iff_exists _ _).mp hpre
        have htlen : t.length ≤ n := by
          have h1 : (c :: cs).length = pat.length + t.length := by
            rw [ht, List.length_append]
          have h2 : 1 ≤ pat.length := by
            rcases pat with _ | _
            · exact absurd rfl hp
            · simp
          simp only [List.length_cons] at h1 hs
          omega
        rw [ht, replaceAllL_append_self pat rep hp t,
          splitCh_append_not_mem ' ' rep _ hrs,
          splitCh_append_not_mem ' ' pat _ hps,
          ih t htlen, List.map_cons,
          replaceAllL_append_self pat rep hp]
        rw [headI_map _ _ (splitCh_ne_nil ' ' t), tail_map]
      · rw [replaceAllL_cons, if_neg hpre]
        by_cases hc : c = ' '
        · subst hc
          rw [splitCh_cons_sep, splitCh_cons_sep, List.map_cons, ih cs hcs,
            replaceAllL_nil]
        · rw [splitCh_cons_ne ' ' c _ hc, splitCh_cons_ne ' ' c cs hc,
            List.map_cons, ih cs hcs]
          have hnotpre :
              ¬(List.isPrefixOf pat (c :: (splitCh ' ' cs).headI) = true) := by
            intro h
            obtain ⟨u, hu⟩ := (isPrefixOf_iff_exists _ _).mp h
            obtain ⟨v, hv⟩ := splitCh_headI_prefix ' ' cs
            apply hpre
            rw [isPrefixOf_iff_exists]
            refine ⟨u ++ v, ?_⟩
            rw [← List.append_assoc, ← hu, List.cons_append, ← hv]
          rw [replaceAllL_cons, if_neg hnotpre]
          rw [headI_map _ _ (splitCh_ne_nil ' ' cs), tail_map]

theorem foldl_passes_splitCh :
    ∀ (ps : List (String × String)),
      (∀ pr ∈ ps, pr.1.data ≠ [] ∧ ' ' ∉ pr.1.data ∧ ' ' ∉ pr.2.data) →
      ∀ s : List Char,
        splitCh ' ' (ps.foldl (fun s pr => replaceAllL pr.1.data pr.2.data s) s) =
          (splitCh ' ' s).map
            (fun t => ps.foldl (fun s pr => replaceAllL pr.1.data pr.2.data s) t) := by
  intro ps
  induction ps with
  | nil =>
    intro _ s
    rw [List.foldl_nil]
    simp
  | cons pr ps ih =>
    intro hfacts s
    have hpr := hfacts pr (List.mem_cons_self _ _)
    have hps := fun q hq => hfacts q (List.mem_cons_of_mem _ hq)
    rw [List.foldl_cons,
      ih hps (replaceAllL pr.1.data pr.2.data s),
      splitCh_replaceAllL pr.1.data pr.2.data hpr.1 hpr.2.1 hpr.2.2
        s.length s (Nat.le_refl _),
      List.map_map]
    rfl

/-! The `~S-`/`~C-`/`~M-` strips of `normalizeKeySequence` are dead code:
the earlier `S-`/`C-`/`M-` substitutions remove every occurrence of those
two-character pairs, and no later replacement string contains such a pair,
ends in `S`/`C`/`M`, or begins with `-`, so the pairs can never reappear
and the strip patterns never match.  Consequently every pass applied to a
non-empty token has a non-empty replacement or is the identity, and no
token of the key-spec is ever emptied. -/

theorem isPrefixOf_singleton_iff (b : Char) (z : List Char) :
    List.isPrefixOf [b] z = true ↔ z.head? = some b := by
  cases z with
  | nil => simp [List.isPrefixOf]
  | cons d ds =>
    show ((b == d) && List.isPrefixOf [] ds) = true ↔ _
    rw [Bool.and_eq_true, beq_iff_eq]
    constructor
    · intro h
      rw [List.head?_cons, h.1]
    · intro h
      rw [List.head?_cons] at h
      exact ⟨(Option.some.inj h).symm, by cases ds <;> rfl⟩

theorem isPrefixOf_pair_iff (a b c : Char) (z : List Char) :
    List.isPrefixOf [a, b] (c :: z) = true ↔ (a = c ∧ z.head? = some b) := by
  show ((a == c) && List.isPrefixOf [b] z) = true ↔ _
  rw [Bool.and_eq_true, beq_iff_eq, isPrefixOf_singleton_iff]

theorem containsL_cons_eq (p : List Char) (c : Char) (cs : List Char) :
    containsL p (c :: cs) = (List.isPrefixOf p (c :: cs) || containsL p cs) := rfl

theorem containsL_tail (p : List Char) {c : Char} {cs : List Char}
    (h : containsL p (c :: cs) = false) : containsL p cs = false :=
  (Bool.or_eq_false_iff.mp (containsL_cons_eq p c cs ▸ h)).2

theorem containsL_drop (p : List Char) :
    ∀ (n : Nat) (s : List Char), containsL p s = false →
      containsL p (s.drop n) = false := by
  intro n
  induction n with
  | zero => intro s h; rw [List.drop_zero]; exact h
  | succ n ih =>
    intro s h
    cases s with
    | nil => exact h
    | cons c cs =>
      rw [List.drop_succ_cons]
      exact ih cs (containsL_tail p h)

theorem containsL_of_isPrefixOf {p z : List Char}
    (h : List.isPrefixOf p z = true) : containsL p z = true := by
  cases z with
  | nil =>
    cases p with
    | nil => rfl
    | cons a p => simp [List.isPrefixOf] at h
  | cons d ds =>
    rw [containsL_cons_eq, h]
    rfl

theorem containsL_cons_pattern (x : Char) (p : List Char) :
    ∀ s : List Char, containsL p s = false → containsL (x :: p) s = false := by
  intro s
  induction s with
  | nil => intro _; rfl
  | cons c cs ih =>
    intro h
    rw [containsL_cons_eq]
    rw [ih (containsL_tail p h), Bool.or_false]
    apply Bool.eq_false_iff.mpr
    intro hp
    have hp2 : List.isPrefixOf p cs = true := by
      simp only [List.isPrefixOf, Bool.and_eq_true] at hp
      exact hp.2
    have : containsL p cs = true := containsL_of_isPrefixOf hp2
    rw [containsL_tail p h] at this
    exact absurd this (by decide)

theorem replaceAllL_of_not_contains (q r : List Char) :
    ∀ s : List Char, containsL q s = false → replaceAllL q r s = s := by
  intro s
  induction s with
  | nil => intro _; rfl
  | cons c cs ih =>
    intro h
    have hparts := Bool.or_eq_false_iff.mp (containsL_cons_eq q c cs ▸ h)
    rw [replaceAllL_cons, if_neg (by rw [hparts.1]; exact Bool.false_ne_true),
      ih hparts.2]

theorem head_replaceAllL (q r : List Char) (hr : r ≠ []) (s : List Char) :
    (replaceAllL q r s).head? = r.head? ∨ (replaceAllL q r s).head? = s.head? := by
  cases s with
  | nil => right; rfl
  | cons c cs =>
    rw [replaceAllL_cons]
    by_cases hpre : List.isPrefixOf q (c :: cs) = true
    · rw [if_pos hpre]
      left
      rcases r with _ | ⟨r0, r'⟩
      · exact absurd rfl hr
      · rfl
    · rw [if_neg hpre]
      right
      rfl

theorem containsL_pair_append_false (a b : Char) (y : List Char)
    (hy : containsL [a, b] y = false) :
    ∀ x : List Char, containsL [a, b] x = false → x.getLast? ≠ some a →
      containsL [a, b] (x ++ y) = false := by
  intro x
  induction x with
  | nil => intro _ _; exact hy
  | cons c x' ih =>
    intro hx hlast
    cases x' with
    | nil =>
      have hca : a ≠ c := by
        intro h
        exact hlast (by rw [← h]; rfl)
      rw [List.cons_append, List.nil_append, containsL_cons_eq, hy, Bool.or_false]
      apply Bool.eq_false_iff.mpr
      intro h
      exact hca ((isPrefixOf_pair_iff a b c y).mp h).1
    | cons d x'' =>
      have hlast2 : (d :: x'').getLast? ≠ some a := by
        intro h
        apply hlast
        rw [List.getLast?_cons_cons]
        exact h
      rw [List.cons_append, containsL_cons_eq,
        ih (containsL_tail _ hx) hlast2, Bool.or_false]
      apply Bool.eq_false_iff.mpr
      intro h
      obtain ⟨hac, hhb⟩ := (isPrefixOf_pair_iff a b c _).mp h
      rw [List.cons_append, List.head?_cons] at hhb
      have hbd : d = b := Option.some.inj hhb
      have : containsL [a, b] (c :: d :: x'') = true := by
        apply containsL_of_isPrefixOf
        rw [isPrefixOf_pair_iff]
        exact ⟨hac, by rw [List.head?_cons, hbd]⟩
      rw [hx] at this
      exact absurd this (by decide)

theorem noOcc_replaceAllL (a b : Char) (q r : List Char) (hq : q ≠ [])
    (hr : r ≠ [])
    (hrno : containsL [a, b] r = false)
    (hrlast : r.getLast? ≠ some a)
    (hrhead : r.head? ≠ some b) :
    ∀ (n : Nat) (s : List Char), s.length ≤ n →
      (containsL [a, b] s = false ∨ q = [a, b]) →
      containsL [a, b] (replaceAllL q r s) = false := by
  intro n
  induction n with
  | zero =>
    intro s hs _
    have : s = [] := List.eq_nil_of_length_eq_zero (Nat.le_zero.mp hs)
    subst this
    rfl
  | succ n ih =>
    intro s hs hdisj
    cases s with
    | nil => rfl
    | cons c cs =>
      by_cases hpre : List.isPrefixOf q (c :: cs) = true
      · rw [replaceAllL_cons, if_pos hpre]
        obtain ⟨rest, hrest⟩ := (isPrefixOf_iff_exists _ _).mp hpre
        have hdrop : cs.drop (q.length - 1) = rest := by
          rcases q with _ | ⟨q0, q'⟩
          · exact absurd rfl hq
          · rw [List.cons_append] at hrest
            injection hrest with h1 h2
            have hlen : (q0 :: q').length - 1 = q'.length := by simp
            rw [hlen, h2, List.drop_left]
        rw [hdrop]
        have hrest_len : rest.length ≤ n := by
          have h1 : (c :: cs).length = q.length + rest.length := by
            rw [hrest, List.length_append]
          have h2 : 1 ≤ q.length := by
            rcases q with _ | _
            · exact absurd rfl hq
            · simp
          simp only [List.length_cons] at h1 hs
          omega
        have hrest_disj : containsL [a, b] rest = false ∨ q = [a, b] := by
          rcases hdisj with hno | hq2
          · left
            have : rest = (c :: cs).drop q.length := by
              rw [hrest, List.drop_left]
            rw [this]
            exact containsL_drop [a, b] q.length (c :: cs) hno
          · exact Or.inr hq2
        exact containsL_pair_append_false a b _ (ih rest hrest_len hrest_disj)
          r hrno hrlast
      · rw [replaceAllL_cons, if_neg hpre]
        have hcs_disj : containsL [a, b] cs = false ∨ q = [a, b] := by
          rcases hdisj with hno | hq2
          · exact Or.inl (containsL_tail _ hno)
          · exact Or.inr hq2
        have hcs_ih := ih cs (Nat.le_of_succ_le_succ hs) hcs_disj
        rw [containsL_cons_eq, hcs_ih, Bool.or_false]
        apply Bool.eq_false_iff.mpr
        intro h
        obtain ⟨hac, hhb⟩ := (isPrefixOf_pair_iff a b c _).mp h
        have hcsb : cs.head? ≠ some b := by
          intro hcsb
          have hpre2 : List.isPrefixOf [a, b] (c :: cs) = true := by
            rw [isPrefixOf_pair_iff]
            exact ⟨hac, hcsb⟩
          rcases hdisj with hno | hq2
          · have : containsL [a, b] (c :: cs) = true :=
              containsL_of_isPrefixOf hpre2
            rw [hno] at this
            exact absurd this (by decide)
          · rw [← hq2] at hpre2
            exact hpre hpre2
        rcases head_replaceAllL q r hr cs with hh | hh
        · rw [hh] at hhb
          exact hrhead hhb
        · rw [hh] at hhb
          exact hcsb hhb

theorem presTriple (q r : List Char) (hq : q ≠ []) (hok : repOkB r = true)
    {s : List Char} (hs : noMCS s) (hsne : s ≠ []) :
    noMCS (replaceAllL q r s) ∧ replaceAllL q r s ≠ [] := by
  unfold repOkB at hok
  simp only [Bool.and_eq_true, Bool.not_eq_true'] at hok
  obtain ⟨⟨⟨⟨⟨⟨⟨hne0, hM⟩, hC⟩, hS⟩, hlM⟩, hlC⟩, hlS⟩, hh⟩ := hok
  have hrne : r ≠ [] := by
    intro h
    rw [h] at hne0
    exact absurd hne0 (by decide)
  have hlM' : r.getLast? ≠ some 'M' := beq_eq_false_iff_ne.mp hlM
  have hlC' : r.getLast? ≠ some 'C' := beq_eq_false_iff_ne.mp hlC
  have hlS' : r.getLast? ≠ some 'S' := beq_eq_false_iff_ne.mp hlS
  have hh' : r.head? ≠ some '-' := beq_eq_false_iff_ne.mp hh
  refine ⟨⟨?_, ?_, ?_⟩, replaceAllL_ne_nil _ _ hrne hsne⟩
  · exact noOcc_replaceAllL 'M' '-' q r hq hrne hM hlM' hh'
      s.length s (Nat.le_refl _) (Or.inl hs.1)
  · exact noOcc_replaceAllL 'C' '-' q r hq hrne hC hlC' hh'
      s.length s (Nat.le_refl _) (Or.inl hs.2.1)
  · exact noOcc_replaceAllL 'S' '-' q r hq hrne hS hlS' hh'
      s.length s (Nat.le_refl _) (Or.inl hs.2.2)

theorem passes_chunk_ne_nil (t : List Char) (ht : t ≠ []) :
    normalizePassList.foldl (fun s pr => replaceAllL pr.1.data pr.2.data s) t ≠ [] := by
  simp only [normalizePassList, List.foldl_cons, List.foldl_nil]
  have e1M : containsL ['M', '-'] (replaceAllL ['M', '-'] ['A', 'l', 't', '+'] t) = false :=
    noOcc_replaceAllL 'M' '-' ['M', '-'] ['A', 'l', 't', '+'] (by decide) (by decide)
      (by decide) (by decide) (by decide) t.length t (Nat.le_refl _) (Or.inr rfl)
  have e1ne : replaceAllL ['M', '-'] ['A', 'l', 't', '+'] t ≠ [] :=
    replaceAllL_ne_nil _ _ (by decide) ht
  have e2C : containsL ['C', '-'] (replaceAllL ['C', '-'] ['C', 't', 'r', 'l', '+']
      (replaceAllL ['M', '-'] ['A', 'l', 't', '+'] t)) = false :=
    noOcc_replaceAllL 'C' '-' ['C', '-'] ['C', 't', 'r', 'l', '+'] (by decide)
      (by decide) (by decide) (by decide) (by decide) _ _ (Nat.le_refl _) (Or.inr rfl)
  have e2M : containsL ['M', '-'] (replaceAllL ['C', '-'] ['C', 't', 'r', 'l', '+']
      (replaceAllL ['M', '-'] ['A', 'l', 't', '+'] t)) = false :=
    noOcc_replaceAllL 'M' '-' ['C', '-'] ['C', 't', 'r', 'l', '+'] (by decide)
      (by decide) (by decide) (by decide) (by decide) _ _ (Nat.le_refl _) (Or.inl e1M)
  have e2ne : replaceAllL ['C', '-'] ['C', 't', 'r', 'l', '+']
      (replaceAllL ['M', '-'] ['A', 'l', 't', '+'] t) ≠ [] :=
    replaceAllL_ne_nil _ _ (by decide) e1ne
  have e3S : containsL ['S', '-'] (replaceAllL ['S', '-'] ['S', 'h', 'i', 'f', 't', '+']
      (replaceAllL ['C', '-'] ['C', 't', 'r', 'l', '+']
        (replaceAllL ['M', '-'] ['A', 'l', 't', '+'] t))) = false :=
    noOcc_replaceAllL 'S' '-' ['S', '-'] ['S', 'h', 'i', 'f', 't', '+'] (by decide)
      (by decide) (by decide) (by decide) (by decide) _ _ (Nat.le_refl _) (Or.inr rfl)
  have e3M : containsL ['M', '-'] (replaceAllL ['S', '-'] ['S', 'h', 'i', 'f', 't', '+']
      (replaceAllL ['C', '-'] ['C', 't', 'r', 'l', '+']
        (replaceAllL ['M', '-'] ['A', 'l', 't', '+'] t))) = false :=
    noOcc_replaceAllL 'M' '-' ['S', '-'] ['S', 'h', 'i', 'f', 't', '+'] (by decide)
      (by decide) (by decide) (by decide) (by decide) _ _ (Nat.le_refl _) (Or.inl e2M)
  have e3C : containsL ['C', '-'] (replaceAllL ['S', '-'] ['S', 'h', 'i', 'f', 't', '+']
      (replaceAllL ['C', '-'] ['C', 't', 'r', 'l', '+']
        (replaceAllL ['M', '-'] ['A', 'l', 't', '+'] t))) = false :=
    noOcc_replaceAllL 'C' '-' ['S', '-'] ['S', 'h', 'i', 'f', 't', '+'] (by decide)
      (by decide) (by decide) (by decide) (by decide) _ _ (Nat.le_refl _) (Or.inl e2C)
  have h3 : noMCS (replaceAllL ['S', '-'] ['S', 'h', 'i', 'f', 't', '+']
        (replaceAllL ['C', '-'] ['C', 't', 'r', 'l', '+']
          (replaceAllL ['M', '-'] ['A', 'l', 't', '+'] t))) ∧
      replaceAllL ['S', '-'] ['S', 'h', 'i', 'f', 't', '+']
        (replaceAllL ['C', '-'] ['C', 't', 'r', 'l', '+']
          (replaceAllL ['M', '-'] ['A', 'l', 't', '+'] t)) ≠ [] :=
    ⟨⟨e3M, e3C, e3S⟩, replaceAllL_ne_nil _ _ (by decide) e2ne⟩
  have h4 := presTriple ['A', '-'] ['A', 'l', 't', '+']
    (by decide) (by decide) h3.1 h3.2
  have h5 := presTriple ['s', 'p', 'a', 'c', 'e'] ['S', 'p', 'a', 'c', 'e']
    (by decide) (by decide) h4.1 h4.2
  have h6 := presTriple ['R', 'e', 't', 'u', 'r', 'n'] ['E', 'n', 't', 'e', 'r']
    (by decide) (by decide) h5.1 h5.2
  have h7 := presTriple ['B', 'a', 'c', 'k', 'S', 'p', 'a', 'c', 'e']
    ['B', 'a', 'c', 'k', 's', 'p', 'a', 'c', 'e'] (by decide) (by decide) h6.1 h6.2
  have h8 := presTriple ['D', 'e', 'l', 'e', 't', 'e'] ['D', 'e', 'l', 'e', 't', 'e']
    (by decide) (by decide) h7.1 h7.2
  have h9 := presTriple ['T', 'a', 'b'] ['T', 'a', 'b']
    (by decide) (by decide) h8.1 h8.2
  have h10 := presTriple ['E', 's', 'c', 'a', 'p', 'e'] ['E', 's', 'c', 'a', 'p', 'e']
    (by decide) (by decide) h9.1 h9.2
  have h11 := presTriple ['U', 'p'] ['A', 'r', 'r', 'o', 'w', 'U', 'p']
    (by decide) (by decide) h10.1 h10.2
  have h12 := presTriple ['D', 'o', 'w', 'n'] ['A', 'r', 'r', 'o', 'w', 'D', 'o', 'w', 'n']
    (by decide) (by decide) h11.1 h11.2
  have h13 := presTriple ['L', 'e', 'f', 't'] ['A', 'r', 'r', 'o', 'w', 'L', 'e', 'f', 't']
    (by decide) (by decide) h12.1 h12.2
  have h14 := presTriple ['R', 'i', 'g', 'h', 't']
    ['A', 'r', 'r', 'o', 'w', 'R', 'i', 'g', 'h', 't'] (by decide) (by decide) h13.1 h13.2
  have h15 := presTriple ['P', 'r', 'i', 'o', 'r'] ['P', 'a', 'g', 'e', 'U', 'p']
    (by decide) (by decide) h14.1 h14.2
  have h16 := presTriple ['N', 'e', 'x', 't'] ['P', 'a', 'g', 'e', 'D', 'o', 'w', 'n']
    (by decide) (by decide) h15.1 h15.2
  have h17 := presTriple ['H', 'o', 'm', 'e'] ['H', 'o', 'm', 'e']
    (by decide) (by decide) h16.1 h16.2
  have h18 := presTriple ['E', 'n', 'd'] ['E', 'n', 'd']
    (by decide) (by decide) h17.1 h17.2
  have hid19 := replaceAllL_of_not_contains ['~', 'S', '-'] [] _
    (containsL_cons_pattern '~' ['S', '-'] _ h18.1.2.2)
  rw [hid19]
  have hid20 := replaceAllL_of_not_contains ['~', 'C', '-'] [] _
    (containsL_cons_pattern '~' ['C', '-'] _ h18.1.2.1)
  rw [hid20]
  have hid21 := replaceAllL_of_not_contains ['~', 'M', '-'] [] _
    (containsL_cons_pattern '~' ['M', '-'] _ h18.1.1)
  rw [hid21]
  exact h18.2

/-- **C5** (counterexample).  The line `\bind " a" "x"` is well-formed
(the bind-line grammar matches, with key-spec `" a"`), yet the produced
Binding's sequence serialization is `" a"`: it begins with a space, its
split-on-space token count is 2, and its whitespace-separated element
count is 1 — the claimed properties fail. -/
theorem c5_counterexample :
    ((parseBindLine "\\bind \" a\" \"x\"").1.map (fun b => b.keySequence)) = some " a" ∧
    " a".data.head? = some ' ' ∧
    (splitCh ' ' " a".data).length = 2 ∧
    ((splitCh ' ' " a".data).filter (fun t => !t.isEmpty)).length = 1 := by
  decide

/-- **C5** (amended).  For every well-formed binding line whose quoted
key-spec has no empty whitespace-separated field (equivalently: no
leading space, no trailing space, no two adjacent spaces), `compile`
produces exactly one Binding whose sequence serialization is the
normalized key-spec, has no leading or trailing space, and whose
split-on-space token count equals both the key-spec's split-on-space
token count and the number of whitespace-separated elements of the
normalized key-spec.  (No further restriction is needed: the
`~S-`/`~C-`/`~M-` strips are dead code — `passes_chunk_ne_nil` — so no
token is ever emptied by normalization.) -/
theorem c5_wellformed_binding (line : String) (ks cmd : List Char)
    (hmatch : matchBindLine line.data = some (ks, cmd))
    (hchunks : ∀ t ∈ splitCh ' ' ks, t ≠ []) :
    ∃ b : Binding,
      (parseBindLine line).1 = some b ∧
      b.keySequence = normalizeKeySequence (String.mk ks) ∧
      (∀ t ∈ splitCh ' ' b.keySequence.data, t ≠ []) ∧
      (∀ xs, b.keySequence.data ≠ ' ' :: xs) ∧
      (∀ xs, b.keySequence.data ≠ xs ++ [' ']) ∧
      (splitCh ' ' b.keySequence.data).length = (splitCh ' ' ks).length ∧
      (splitCh ' ' b.keySequence.data).length =
        ((splitCh ' ' b.keySequence.data).filter (fun t => !t.isEmpty)).length := by
  have hpb : (parseBindLine line).1 = some
      { keySequence := normalizeKeySequence (String.mk ks)
        originalKeySequence := String.mk ks
        command := String.mk cmd
        action := parseCommand (String.mk cmd) } := by
    unfold parseBindLine
    rw [hmatch]
  have hfacts1 : ∀ pr ∈ normalizePassList,
      pr.1.data ≠ [] ∧ ' ' ∉ pr.1.data ∧ ' ' ∉ pr.2.data := by decide
  have hdat : (normalizeKeySequence (String.mk ks)).data =
      normalizePassList.foldl (fun s pr => replaceAllL pr.1.data pr.2.data s) ks := by
    unfold normalizeKeySequence
    rw [show (String.mk ks).data = ks from rfl]
  have hsplit : splitCh ' ' (normalizeKeySequence (String.mk ks)).data =
      (splitCh ' ' ks).map
        (fun t => normalizePassList.foldl
          (fun s pr => replaceAllL pr.1.data pr.2.data s) t) := by
    rw [hdat]
    exact foldl_passes_splitCh normalizePassList hfacts1 ks
  have hne : ∀ t ∈ splitCh ' ' (normalizeKeySequence (String.mk ks)).data, t ≠ [] := by
    rw [hsplit]
    intro t ht
    rw [List.mem_map] at ht
    obtain ⟨t0, ht0, rfl⟩ := ht
    exact passes_chunk_ne_nil t0 (hchunks t0 ht0)
  refine ⟨_, hpb, rfl, hne, ?_, ?_, ?_, ?_⟩
  · intro xs hxs
    refine (hne [] ?_) rfl
    rw [hxs, splitCh_cons_sep]
    exact List.mem_cons_self _ _
  · intro xs hxs
    obtain ⟨pre, hpre, hsp⟩ := splitCh_append_sep ' ' xs
    refine (hne [] ?_) rfl
    rw [hxs, hsp]
    exact List.mem_append_right _ (List.mem_singleton.mpr rfl)
  · rw [hsplit, List.length_map]
  · rw [List.filter_eq_self.mpr ?_]
    intro t ht
    rcases hteq : t with _ | ⟨c0, cs0⟩
    · exact absurd hteq (hne t ht)
    · rfl

/-- Witness for `c5_wellformed_binding` on the line `\bind "M-m g" "x"`
(key-spec `M-m g`: two non-empty space-separated fields). -/
theorem c5_wellformed_binding_witness :
    ∃ b : Binding,
      (parseBindLine "\\bind \"M-m g\" \"x\"").1 = some b ∧
      b.keySequence = normalizeKeySequence (String.mk "M-m g".data) ∧
      (∀ t ∈ splitCh ' ' b.keySequence.data, t ≠ []) ∧
      (∀ xs, b.keySequence.data ≠ ' ' :: xs) ∧
      (∀ xs, b.keySequence.data ≠ xs ++ [' ']) ∧
      (splitCh ' ' b.keySequence.data).length = (splitCh ' ' "M-m g".data).length ∧
      (splitCh ' ' b.keySequence.data).length =
        ((splitCh ' ' b.keySequence.data).filter (fun t => !t.isEmpty)).length := by
  exact c5_wellformed_binding "\\bind \"M-m g\" \"x\"" "M-m g".data "x".data
    (by decide) (by decide)

end LyxPlugin
